import Mathlib

/-!
Verification of the online decision engine of the repository:
reward transform (`src/app/scoring.py` with the `Score` model of
`src/app/models.py`), the two bandit policies
(`src/app/factories/policy_learner.py`) and the outreach ranker
(`src/app/factories/prioritizer.py`).

Python floats are modelled as exact rationals, Python ints as integers
(or naturals where the source only ever holds naturals), Python dicts as
insertion-ordered association lists, and calls that can raise as
`Option`-valued functions (`none` = the call raises).
-/

set_option autoImplicit false

namespace Spec2Proof

/-! ## Scoring: `src/app/models.py` (class Score) and `src/app/scoring.py` -/

/-- The three numeric sub-scores of a Judge evaluation
(`Score` in `src/app/models.py`, lines 41-45).  The field constraints
are enforced by `Score.validate` below, mirroring the pydantic
`Field(ge=..., le=...)` bounds. -/
structure Score where
  NPS_expected : ℚ
  EngagementProb : ℚ
  ChurnProb : ℚ
deriving Repr, DecidableEq

/-- Pydantic validation of `Score` (`src/app/models.py` lines 43-45):
`NPS_expected` must lie in [0,10], `EngagementProb` and `ChurnProb`
in [0,1]; construction fails (a `ValidationError`) otherwise and the
field values are stored unchanged when it succeeds. -/
def Score.validate (nps eng chrn : ℚ) : Option Score :=
  if 0 ≤ nps ∧ nps ≤ 10 then
    if 0 ≤ eng ∧ eng ≤ 1 then
      if 0 ≤ chrn ∧ chrn ≤ 1 then
        some ⟨nps, eng, chrn⟩
      else none
    else none
  else none

/-- Embedding of `compute_reward` (`src/app/scoring.py` lines 9-30):
`r_raw = 0.6*nps + 0.3*(eng*10) - 0.3*(chrn*10)`, then
`max(0.0, min(1.0, r_raw / 10.0))`. -/
def compute_reward (score : Score) : ℚ :=
  let nps := score.NPS_expected
  let eng := score.EngagementProb
  let chrn := score.ChurnProb
  let r_raw := 6/10 * nps + 3/10 * (eng * 10) - 3/10 * (chrn * 10)
  max 0 (min 1 (r_raw / 10))

/-- The reward formula exactly as the specification words it:
`clamp((0.6*satisfaction + 0.3*(engagement*10) - 0.3*(churn*10)) / 10)`
to [0,1]. -/
def rewardSpecFormula (satisfaction engagement churn : ℚ) : ℚ :=
  max 0 (min 1 ((6/10 * satisfaction + 3/10 * (engagement * 10) - 3/10 * (churn * 10)) / 10))

/-- C1: for every in-domain evaluation record, `compute_reward` returns
exactly the clamped weighted formula of the spec, and its result is
always in [0,1]. -/
theorem C1_reward_matches_spec_and_is_bounded (s : Score)
    (h1 : 0 ≤ s.NPS_expected) (h2 : s.NPS_expected ≤ 10)
    (h3 : 0 ≤ s.EngagementProb) (h4 : s.EngagementProb ≤ 1)
    (h5 : 0 ≤ s.ChurnProb) (h6 : s.ChurnProb ≤ 1) :
    compute_reward s = rewardSpecFormula s.NPS_expected s.EngagementProb s.ChurnProb ∧
    0 ≤ compute_reward s ∧ compute_reward s ≤ 1 := by
  refine ⟨rfl, le_max_left 0 _, ?_⟩
  exact max_le (by norm_num) (min_le_left 1 _)

theorem C1_witness :
    compute_reward ⟨7, 1/2, 1/10⟩ = rewardSpecFormula 7 (1/2) (1/10) ∧
    0 ≤ compute_reward ⟨7, 1/2, 1/10⟩ ∧ compute_reward ⟨7, 1/2, 1/10⟩ ≤ 1 :=
  C1_reward_matches_spec_and_is_bounded ⟨7, 1/2, 1/10⟩
    (by norm_num) (by norm_num) (by norm_num) (by norm_num) (by norm_num) (by norm_num)

/-- C5: constructing the input of the reward transform fails exactly when
some sub-score is outside its declared domain, and on success the stored
sub-scores are the raw inputs unchanged (no silent coercion), so the only
bounding performed is the final clamping of the output. -/
theorem C5_validation_rejects_out_of_domain (nps eng chrn : ℚ) :
    (Score.validate nps eng chrn = none ↔
      ¬ (0 ≤ nps ∧ nps ≤ 10 ∧ 0 ≤ eng ∧ eng ≤ 1 ∧ 0 ≤ chrn ∧ chrn ≤ 1)) ∧
    (∀ s : Score, Score.validate nps eng chrn = some s →
      s = ⟨nps, eng, chrn⟩ ∧ compute_reward s = rewardSpecFormula nps eng chrn) := by
  constructor
  · unfold Score.validate
    split_ifs <;> simp_all
  · intro s hs
    unfold Score.validate at hs
    split_ifs at hs
    cases hs
    exact ⟨rfl, rfl⟩

theorem C5_witness :
    (⟨5, 1/2, 0⟩ : Score) = ⟨5, 1/2, 0⟩ ∧
    compute_reward ⟨5, 1/2, 0⟩ = rewardSpecFormula 5 (1/2) 0 :=
  (C5_validation_rejects_out_of_domain 5 (1/2) 0).2 ⟨5, 1/2, 0⟩ (by norm_num [Score.validate])

/-! ## Bandit policies: `src/app/factories/policy_learner.py`

Python dicts are modelled as insertion-ordered association lists.  The per
context arm-state dicts always have the fixed arm list as keys (they are
built by a comprehension over `self.arms`).  A `None` context routes to the
global state dict; a `(segment, issue_bucket)` tuple routes to the lazily
created contextual state.  The numpy random draws consumed by `select` are
passed in explicitly as oracle arguments. -/

abbrev Arm := String

abbrev Ctx := String × String

/-- A Python dict keyed by arm id, in insertion order. -/
abbrev ArmMap (σ : Type) := List (Arm × σ)

/-- The dict comprehension `{arm: prior for arm in arms}`. -/
def seedMap {σ : Type} (arms : List Arm) (prior : σ) : ArmMap σ :=
  arms.map (fun a => (a, prior))

/-- Python dict read `m[a]`: `none` models a `KeyError`. -/
def lookupArm {σ : Type} : ArmMap σ → Arm → Option σ
  | [], _ => none
  | p :: m, a => if p.1 = a then some p.2 else lookupArm m a

/-- Python dict in-place mutation of the value at key `a` (no effect on a
missing key; `update` checks the key before using this). -/
def modifyArm {σ : Type} (m : ArmMap σ) (a : Arm) (f : σ → σ) : ArmMap σ :=
  m.map (fun p => if p.1 = a then (p.1, f p.2) else p)

/-- The keys of an arm-state dict, in order. -/
def armKeys {σ : Type} (m : ArmMap σ) : List Arm :=
  m.map Prod.fst

/-- Lookup of a context in the contextual-state dict
(`context in self.contextual_state` / `self.contextual_state[context]`). -/
def findCtx {σ : Type} : List (Ctx × ArmMap σ) → Ctx → Option (ArmMap σ)
  | [], _ => none
  | p :: cs, c => if p.1 = c then some p.2 else findCtx cs c

/-- Lazy creation of an unseen context (`_get_state`, the
`if context not in self.contextual_state` branch): a new entry seeded with
the priors is appended in insertion order. -/
def ensureCtxList {σ : Type} (cs : List (Ctx × ArmMap σ)) (c : Ctx) (seed : ArmMap σ) :
    List (Ctx × ArmMap σ) :=
  match findCtx cs c with
  | some _ => cs
  | none => cs ++ [(c, seed)]

/-- In-place mutation of one context's arm-state dict. -/
def setCtxList {σ : Type} (cs : List (Ctx × ArmMap σ)) (c : Ctx) (f : ArmMap σ → ArmMap σ) :
    List (Ctx × ArmMap σ) :=
  cs.map (fun p => if p.1 = c then (p.1, f p.2) else p)

/-- Embedding of `np.clip(reward, 0, 1)` (`policy_learner.py` lines 91 and 191). -/
def clip01 (r : ℚ) : ℚ :=
  max 0 (min 1 r)

/-- Python `max(samples, key=samples.get)`: starting from a current best
pair, replace it only when a later value is strictly greater, so the first
maximal key in iteration order wins. -/
def maxPairAux {α : Type} : (α × ℚ) → List (α × ℚ) → (α × ℚ)
  | best, [] => best
  | best, p :: rest => if best.2 < p.2 then maxPairAux p rest else maxPairAux best rest

/-- Embedding of `max(d, key=d.get)` over an association list; `none` models the
`ValueError` that `max` raises on an empty dict. -/
def maxByFirst {α : Type} : List (α × ℚ) → Option α
  | [] => none
  | p :: rest => some (maxPairAux p rest).1

/-- Beta-distribution state of one arm (`{"alpha": ..., "beta": ...}`). -/
structure BetaState where
  alpha : ℚ
  beta : ℚ
deriving Repr, DecidableEq

/-- Embedding of `ThompsonBandit` (`policy_learner.py` lines 9-131). -/
structure ThompsonBandit where
  arms : List Arm
  alpha_prior : ℚ
  beta_prior : ℚ
  global_state : ArmMap BetaState
  contextual_state : List (Ctx × ArmMap BetaState)

/-- Embedding of `ThompsonBandit.__init__` (lines 16-36): no validation of `arms`;
the global state is seeded with the priors, the contextual state starts
empty. -/
def ThompsonBandit.init (arms : List Arm) (alpha_prior beta_prior : ℚ) : ThompsonBandit :=
  { arms := arms
    alpha_prior := alpha_prior
    beta_prior := beta_prior
    global_state := seedMap arms ⟨alpha_prior, beta_prior⟩
    contextual_state := [] }

/-- The state-mutating half of `_get_state` (lines 38-58): an unseen
non-global context is created, seeded with the priors for every arm. -/
def ThompsonBandit.ensureCtx (b : ThompsonBandit) : Option Ctx → ThompsonBandit
  | none => b
  | some c =>
    { b with contextual_state :=
        ensureCtxList b.contextual_state c (seedMap b.arms ⟨b.alpha_prior, b.beta_prior⟩) }

/-- The value returned by `_get_state` (lines 38-58): the global dict for
`None`, otherwise the context's dict (which, right after `ensureCtx`, is
the stored one; for a still-unseen context it is the seeded dict it would
be created with). -/
def ThompsonBandit.viewState (b : ThompsonBandit) : Option Ctx → ArmMap BetaState
  | none => b.global_state
  | some c => (findCtx b.contextual_state c).getD (seedMap b.arms ⟨b.alpha_prior, b.beta_prior⟩)

/-- Embedding of `ThompsonBandit.select` (lines 60-79): one Beta sample per arm (the
oracle `draw` supplies the numpy draws), then `max(samples,
key=samples.get)`; `none` models the `ValueError` on an empty arm dict.
The context is lazily created as a side effect, captured by `ensureCtx` in
the trace semantics below. -/
def ThompsonBandit.selectArm (b : ThompsonBandit) (draw : Arm → ℚ) (ctx : Option Ctx) :
    Option Arm :=
  maxByFirst (((b.ensureCtx ctx).viewState ctx).map (fun p => (p.1, draw p.1)))

/-- In-place update of one (context, arm) cell, used by `update` after the
key check. -/
def ThompsonBandit.setPair (b : ThompsonBandit) (ctx : Option Ctx) (arm : Arm)
    (f : BetaState → BetaState) : ThompsonBandit :=
  match ctx with
  | none => { b with global_state := modifyArm b.global_state arm f }
  | some c =>
    { b with contextual_state :=
        setCtxList b.contextual_state c (fun m => modifyArm m arm f) }

/-- Embedding of `ThompsonBandit.update` (lines 81-97): clip the reward to [0,1], fetch
the context state (lazily creating it), then `state[arm]["alpha"] += r` and
`state[arm]["beta"] += (1 - r)`; `none` models the `KeyError` when `arm` is
not a key of the state dict. -/
def ThompsonBandit.update (b : ThompsonBandit) (arm : Arm) (reward : ℚ) (ctx : Option Ctx) :
    Option ThompsonBandit :=
  let r := clip01 reward
  let b1 := b.ensureCtx ctx
  match lookupArm (b1.viewState ctx) arm with
  | none => none
  | some _ => some (b1.setPair ctx arm (fun st => ⟨st.alpha + r, st.beta + (1 - r)⟩))

/-- The `n_pulls` field reported by `get_statistics` (line 124):
`alpha + beta - 2  # subtract priors`. -/
def ThompsonBandit.nPulls (st : BetaState) : ℚ :=
  st.alpha + st.beta - 2

/-- Embedding of `ThompsonBandit.get_all_contexts` (lines 129-131):
`list(self.contextual_state.keys())`. -/
def ThompsonBandit.getAllContexts (b : ThompsonBandit) : List Ctx :=
  b.contextual_state.map Prod.fst

/-- One call against a `ThompsonBandit`: `select` (with its numpy draws),
`update`, or `get_statistics`. -/
inductive TOp where
  | select (draw : Arm → ℚ) (ctx : Option Ctx)
  | update (arm : Arm) (reward : ℚ) (ctx : Option Ctx)
  | getStats (ctx : Option Ctx)

/-- The context argument of a call. -/
def TOp.ctx : TOp → Option Ctx
  | .select _ c => c
  | .update _ _ c => c
  | .getStats c => c

/-- Whether a call is a `select` or an `update` (as opposed to
`get_statistics`). -/
def TOp.isSelOrUpd : TOp → Bool
  | .getStats _ => false
  | _ => true

/-- Whether a call is an `update` for the given (context, arm) pair. -/
def TOp.isUpdOf : TOp → Option Ctx → Arm → Bool
  | .update a _ c, ctx, arm => a = arm ∧ c = ctx
  | _, _, _ => false

/-- State effect of one call on a `ThompsonBandit`: `select` and
`get_statistics` only lazily create the context (`_get_state`); a failed
`update` (unknown arm) has already created the context when the `KeyError`
is raised, and mutates nothing else. -/
def ThompsonBandit.step (b : ThompsonBandit) : TOp → ThompsonBandit
  | .select _ ctx => b.ensureCtx ctx
  | .update arm reward ctx => (b.update arm reward ctx).getD (b.ensureCtx ctx)
  | .getStats ctx => b.ensureCtx ctx

/-- State after a sequence of calls. -/
def runTS (b : ThompsonBandit) (ops : List TOp) : ThompsonBandit :=
  ops.foldl ThompsonBandit.step b

/-- Sample-average state of one arm
(`{"total_reward": 0.0, "count": 0}`). -/
structure EGState where
  total_reward : ℚ
  count : ℤ
deriving Repr, DecidableEq

/-- Embedding of `EpsilonGreedyBandit` (`policy_learner.py` lines 134-216). -/
structure EpsilonGreedyBandit where
  arms : List Arm
  epsilon : ℚ
  global_state : ArmMap EGState
  contextual_state : List (Ctx × ArmMap EGState)

/-- Embedding of `EpsilonGreedyBandit.__init__` (lines 140-158): no validation of
`arms`. -/
def EpsilonGreedyBandit.init (arms : List Arm) (epsilon : ℚ) : EpsilonGreedyBandit :=
  { arms := arms
    epsilon := epsilon
    global_state := seedMap arms ⟨0, 0⟩
    contextual_state := [] }

/-- State-mutating half of `EpsilonGreedyBandit._get_state`
(lines 160-171). -/
def EpsilonGreedyBandit.ensureCtx (b : EpsilonGreedyBandit) : Option Ctx → EpsilonGreedyBandit
  | none => b
  | some c =>
    { b with contextual_state := ensureCtxList b.contextual_state c (seedMap b.arms ⟨0, 0⟩) }

/-- Value returned by `EpsilonGreedyBandit._get_state`. -/
def EpsilonGreedyBandit.viewState (b : EpsilonGreedyBandit) : Option Ctx → ArmMap EGState
  | none => b.global_state
  | some c => (findCtx b.contextual_state c).getD (seedMap b.arms ⟨0, 0⟩)

/-- The sample mean used by `select` and `get_statistics`
(`s["total_reward"] / s["count"] if s["count"] > 0 else 0.0`). -/
def EGState.mean (s : EGState) : ℚ :=
  if 0 < s.count then s.total_reward / (s.count : ℚ) else 0

/-- Embedding of `EpsilonGreedyBandit.select` (lines 173-187): with
`np.random.random() < epsilon` (the draw is the oracle `rand`), explore by
`np.random.choice(self.arms)` (the oracle `choice` indexes the arm list,
`none` modelling the error on an empty list); otherwise exploit with
`max(means, key=means.get)`. -/
def EpsilonGreedyBandit.selectArm (b : EpsilonGreedyBandit) (rand : ℚ) (choice : ℕ)
    (ctx : Option Ctx) : Option Arm :=
  if rand < b.epsilon then
    b.arms.get? (choice % b.arms.length)
  else
    maxByFirst (((b.ensureCtx ctx).viewState ctx).map (fun p => (p.1, p.2.mean)))

/-- In-place update of one (context, arm) cell. -/
def EpsilonGreedyBandit.setPair (b : EpsilonGreedyBandit) (ctx : Option Ctx) (arm : Arm)
    (f : EGState → EGState) : EpsilonGreedyBandit :=
  match ctx with
  | none => { b with global_state := modifyArm b.global_state arm f }
  | some c =>
    { b with contextual_state :=
        setCtxList b.contextual_state c (fun m => modifyArm m arm f) }

/-- Embedding of `EpsilonGreedyBandit.update` (lines 189-195): clip the reward, then
`state[arm]["total_reward"] += r` and `state[arm]["count"] += 1`; `none`
models the `KeyError` on an unknown arm. -/
def EpsilonGreedyBandit.update (b : EpsilonGreedyBandit) (arm : Arm) (reward : ℚ)
    (ctx : Option Ctx) : Option EpsilonGreedyBandit :=
  let r := clip01 reward
  let b1 := b.ensureCtx ctx
  match lookupArm (b1.viewState ctx) arm with
  | none => none
  | some _ => some (b1.setPair ctx arm (fun st => ⟨st.total_reward + r, st.count + 1⟩))

/-- One call against an `EpsilonGreedyBandit`. -/
inductive EOp where
  | select (rand : ℚ) (choice : ℕ) (ctx : Option Ctx)
  | update (arm : Arm) (reward : ℚ) (ctx : Option Ctx)
  | getStats (ctx : Option Ctx)

/-- State effect of one call on an `EpsilonGreedyBandit`. -/
def EpsilonGreedyBandit.step (b : EpsilonGreedyBandit) : EOp → EpsilonGreedyBandit
  | .select _ _ ctx => b.ensureCtx ctx
  | .update arm reward ctx => (b.update arm reward ctx).getD (b.ensureCtx ctx)
  | .getStats ctx => b.ensureCtx ctx

/-- State after a sequence of calls. -/
def runEG (b : EpsilonGreedyBandit) (ops : List EOp) : EpsilonGreedyBandit :=
  ops.foldl EpsilonGreedyBandit.step b

/-! ## Association-list lemmas -/

theorem armKeys_seedMap {σ : Type} (arms : List Arm) (prior : σ) :
    armKeys (seedMap arms prior) = arms := by
  induction arms with
  | nil => rfl
  | cons a rest ih => simpa [seedMap, armKeys] using ih

theorem mem_seedMap {σ : Type} {arms : List Arm} {prior : σ} {p : Arm × σ}
    (h : p ∈ seedMap arms prior) : p.2 = prior := by
  induction arms with
  | nil => simp [seedMap] at h
  | cons a rest ih =>
    simp only [seedMap, List.map_cons, List.mem_cons] at h
    rcases h with h | h
    · subst h; rfl
    · exact ih (by simpa [seedMap] using h)

theorem lookupArm_seedMap {σ : Type} (arms : List Arm) (prior : σ) (a : Arm) :
    lookupArm (seedMap arms prior) a = if a ∈ arms then some prior else none := by
  induction arms with
  | nil => simp [seedMap, lookupArm]
  | cons x rest ih =>
    simp only [seedMap, List.map_cons] at ih ⊢
    by_cases hx : x = a
    · simp [lookupArm, hx]
    · have hax : ¬ a = x := fun hh => hx hh.symm
      simp only [lookupArm, hx, if_false, ih, List.mem_cons, hax, false_or]

theorem armKeys_modifyArm {σ : Type} (m : ArmMap σ) (a : Arm) (f : σ → σ) :
    armKeys (modifyArm m a f) = armKeys m := by
  induction m with
  | nil => rfl
  | cons p rest ih =>
    by_cases hp : p.1 = a <;> simp_all [modifyArm, armKeys]

theorem mem_modifyArm {σ : Type} {m : ArmMap σ} {a : Arm} {f : σ → σ} {p : Arm × σ}
    (h : p ∈ modifyArm m a f) : p ∈ m ∨ ∃ q ∈ m, p = (q.1, f q.2) := by
  simp only [modifyArm, List.mem_map] at h
  obtain ⟨q, hq, hpq⟩ := h
  by_cases hq1 : q.1 = a
  · right; exact ⟨q, hq, by simp [hq1, ← hpq]⟩
  · left; simpa [hq1, ← hpq] using hq

theorem lookupArm_modifyArm {σ : Type} (m : ArmMap σ) (a x : Arm) (f : σ → σ) :
    lookupArm (modifyArm m a f) x =
      if x = a then (lookupArm m x).map f else lookupArm m x := by
  induction m with
  | nil => simp [modifyArm, lookupArm]
  | cons p rest ih =>
    simp only [modifyArm, List.map_cons] at ih ⊢
    by_cases hp : p.1 = a
    · by_cases hx : x = a
      · have hpx : p.1 = x := by rw [hp, hx]
        simp [lookupArm, hp, hpx, hx]
      · have hpx : ¬ p.1 = x := by rw [hp]; exact fun hh => hx hh.symm
        have hax : ¬ a = x := fun hh => hx hh.symm
        simp [lookupArm, hp, hpx, hax, hx, ih]
    · by_cases hpx : p.1 = x
      · have hx : ¬ x = a := fun hh => hp (by rw [hpx, hh])
        simp [lookupArm, hp, hpx, hx]
      · simp [lookupArm, hp, hpx, ih]

theorem lookupArm_eq_none_iff {σ : Type} (m : ArmMap σ) (a : Arm) :
    lookupArm m a = none ↔ a ∉ armKeys m := by
  induction m with
  | nil => simp [lookupArm, armKeys]
  | cons p rest ih =>
    by_cases hp : p.1 = a
    · simp [lookupArm, armKeys, hp]
    · have hap : ¬ a = p.1 := fun hh => hp hh.symm
      simp [lookupArm, armKeys, hp, hap, ih]

theorem lookupArm_isSome_iff {σ : Type} (m : ArmMap σ) (a : Arm) :
    (lookupArm m a).isSome = true ↔ a ∈ armKeys m := by
  rw [Option.isSome_iff_ne_none]
  constructor
  · intro h
    by_contra hmem
    exact h ((lookupArm_eq_none_iff m a).mpr hmem)
  · intro h hnone
    exact ((lookupArm_eq_none_iff m a).mp hnone) h

theorem lookupArm_mem {σ : Type} {m : ArmMap σ} {a : Arm} {s : σ}
    (h : lookupArm m a = some s) : (a, s) ∈ m := by
  induction m with
  | nil => simp [lookupArm] at h
  | cons p rest ih =>
    by_cases hp : p.1 = a
    · simp [lookupArm, hp] at h
      have hpe : (a, s) = p := by rw [← hp, ← h]
      rw [hpe]
      exact List.mem_cons_self p rest
    · simp only [lookupArm, hp, if_false] at h
      exact List.mem_cons_of_mem _ (ih h)

theorem findCtx_mem {σ : Type} {cs : List (Ctx × ArmMap σ)} {c : Ctx} {m : ArmMap σ}
    (h : findCtx cs c = some m) : (c, m) ∈ cs := by
  induction cs with
  | nil => simp [findCtx] at h
  | cons p rest ih =>
    by_cases hp : p.1 = c
    · simp [findCtx, hp] at h
      have hpe : (c, m) = p := by rw [← hp, ← h]
      rw [hpe]
      exact List.mem_cons_self p rest
    · simp only [findCtx, hp, if_false] at h
      exact List.mem_cons_of_mem _ (ih h)

theorem findCtx_append {σ : Type} (cs ds : List (Ctx × ArmMap σ)) (c : Ctx) :
    findCtx (cs ++ ds) c =
      match findCtx cs c with
      | some m => some m
      | none => findCtx ds c := by
  induction cs with
  | nil => simp [findCtx]
  | cons p rest ih =>
    by_cases hp : p.1 = c <;> simp [findCtx, hp, ih]

theorem findCtx_ensure_self {σ : Type} (cs : List (Ctx × ArmMap σ)) (c : Ctx) (seed : ArmMap σ) :
    findCtx (ensureCtxList cs c seed) c = some ((findCtx cs c).getD seed) := by
  unfold ensureCtxList
  cases h : findCtx cs c with
  | some m => simp [h]
  | none => simp [findCtx_append, h, findCtx]

theorem findCtx_ensure_other {σ : Type} (cs : List (Ctx × ArmMap σ)) (c c2 : Ctx)
    (seed : ArmMap σ) (h : c2 ≠ c) : findCtx (ensureCtxList cs c seed) c2 = findCtx cs c2 := by
  unfold ensureCtxList
  cases hf : findCtx cs c with
  | some m => rfl
  | none =>
    rw [findCtx_append]
    cases hf2 : findCtx cs c2 with
    | some m => rfl
    | none => simp [findCtx, Ne.symm h]

theorem mem_ensureCtxList {σ : Type} {cs : List (Ctx × ArmMap σ)} {c : Ctx} {seed : ArmMap σ}
    {p : Ctx × ArmMap σ} (h : p ∈ ensureCtxList cs c seed) : p ∈ cs ∨ p = (c, seed) := by
  unfold ensureCtxList at h
  cases hf : findCtx cs c with
  | some m => rw [hf] at h; exact Or.inl h
  | none =>
    rw [hf] at h
    rcases List.mem_append.mp h with h2 | h2
    · exact Or.inl h2
    · simpa using Or.inr (by simpa using h2)

theorem keys_ensureCtxList {σ : Type} (cs : List (Ctx × ArmMap σ)) (c c2 : Ctx)
    (seed : ArmMap σ) :
    (c2 ∈ (ensureCtxList cs c seed).map Prod.fst ↔ c2 ∈ cs.map Prod.fst ∨ c2 = c) := by
  unfold ensureCtxList
  cases hf : findCtx cs c with
  | some m =>
    simp only [iff_def]
    constructor
    · exact fun h => Or.inl h
    · rintro (h | rfl)
      · exact h
      · exact List.mem_map.mpr ⟨(c2, m), findCtx_mem hf, rfl⟩
  | none => simp

theorem findCtx_set_self {σ : Type} (cs : List (Ctx × ArmMap σ)) (c : Ctx)
    (f : ArmMap σ → ArmMap σ) :
    findCtx (setCtxList cs c f) c = (findCtx cs c).map f := by
  induction cs with
  | nil => simp [setCtxList, findCtx]
  | cons p rest ih =>
    simp only [setCtxList, List.map_cons] at ih ⊢
    by_cases hp : p.1 = c
    · simp [findCtx, hp]
    · simp [findCtx, hp, ih]

theorem findCtx_set_other {σ : Type} (cs : List (Ctx × ArmMap σ)) (c c2 : Ctx)
    (f : ArmMap σ → ArmMap σ) (h : c2 ≠ c) :
    findCtx (setCtxList cs c f) c2 = findCtx cs c2 := by
  have hcc : ¬ c = c2 := Ne.symm h
  induction cs with
  | nil => simp [setCtxList, findCtx]
  | cons p rest ih =>
    simp only [setCtxList, List.map_cons] at ih ⊢
    by_cases hp : p.1 = c
    · have hp2 : ¬ p.1 = c2 := by rw [hp]; exact hcc
      simp [findCtx, hp, hp2, hcc, ih]
    · by_cases hp2 : p.1 = c2 <;> simp [findCtx, hp, hp2, h, hcc, ih]

theorem keys_setCtxList {σ : Type} (cs : List (Ctx × ArmMap σ)) (c : Ctx)
    (f : ArmMap σ → ArmMap σ) :
    (setCtxList cs c f).map Prod.fst = cs.map Prod.fst := by
  induction cs with
  | nil => rfl
  | cons p rest ih =>
    simp only [setCtxList, List.map_cons] at ih ⊢
    by_cases hp : p.1 = c <;> simp [hp, ih]

theorem mem_setCtxList {σ : Type} {cs : List (Ctx × ArmMap σ)} {c : Ctx}
    {f : ArmMap σ → ArmMap σ} {p : Ctx × ArmMap σ} (h : p ∈ setCtxList cs c f) :
    p ∈ cs ∨ ∃ q ∈ cs, p = (q.1, f q.2) := by
  simp only [setCtxList, List.mem_map] at h
  obtain ⟨q, hq, hpq⟩ := h
  by_cases hq1 : q.1 = c
  · right; exact ⟨q, hq, by simp [hq1, ← hpq]⟩
  · left; simpa [hq1, ← hpq] using hq

theorem armKeys_nil_iff {σ : Type} (m : ArmMap σ) : armKeys m = [] ↔ m = [] := by
  cases m <;> simp [armKeys]

/-! ## Lemmas about `maxPairAux` / `maxByFirst` -/

theorem maxPairAux_le {α : Type} (rest : List (α × ℚ)) :
    ∀ best : α × ℚ, best.2 ≤ (maxPairAux best rest).2 ∧
      ∀ q ∈ rest, q.2 ≤ (maxPairAux best rest).2 := by
  induction rest with
  | nil => exact fun best => ⟨le_refl _, by simp⟩
  | cons p t ih =>
    intro best
    by_cases hb : best.2 < p.2
    · have hstep : maxPairAux best (p :: t) = maxPairAux p t := by simp [maxPairAux, hb]
      rw [hstep]
      obtain ⟨h1, h2⟩ := ih p
      refine ⟨le_of_lt (lt_of_lt_of_le hb h1), ?_⟩
      intro q hq
      rcases List.mem_cons.mp hq with rfl | hq2
      · exact h1
      · exact h2 q hq2
    · have hstep : maxPairAux best (p :: t) = maxPairAux best t := by simp [maxPairAux, hb]
      rw [hstep]
      obtain ⟨h1, h2⟩ := ih best
      refine ⟨h1, ?_⟩
      intro q hq
      rcases List.mem_cons.mp hq with rfl | hq2
      · exact le_trans (not_lt.mp hb) h1
      · exact h2 q hq2

theorem maxPairAux_first {α : Type} (rest : List (α × ℚ)) :
    ∀ best : α × ℚ, maxPairAux best rest = best ∨
      ∃ pre post, rest = pre ++ maxPairAux best rest :: post ∧
        best.2 < (maxPairAux best rest).2 ∧
        ∀ q ∈ pre, q.2 < (maxPairAux best rest).2 := by
  induction rest with
  | nil => exact fun best => Or.inl rfl
  | cons p t ih =>
    intro best
    by_cases hb : best.2 < p.2
    · have hstep : maxPairAux best (p :: t) = maxPairAux p t := by simp [maxPairAux, hb]
      rw [hstep]
      rcases ih p with h | ⟨pre, post, hdec, hlt, hpre⟩
      · right
        refine ⟨[], t, ?_, ?_, by simp⟩
        · rw [h]; simp
        · rw [h]; exact hb
      · right
        refine ⟨p :: pre, post, ?_, lt_trans hb hlt, ?_⟩
        · conv_lhs => rw [hdec]
          simp
        · intro q hq
          rcases List.mem_cons.mp hq with rfl | hq2
          · exact hlt
          · exact hpre q hq2
    · have hstep : maxPairAux best (p :: t) = maxPairAux best t := by simp [maxPairAux, hb]
      rw [hstep]
      rcases ih best with h | ⟨pre, post, hdec, hlt, hpre⟩
      · exact Or.inl h
      · right
        refine ⟨p :: pre, post, ?_, hlt, ?_⟩
        · conv_lhs => rw [hdec]
          simp
        · intro q hq
          rcases List.mem_cons.mp hq with rfl | hq2
          · exact lt_of_le_of_lt (not_lt.mp hb) hlt
          · exact hpre q hq2

/-- The arm selected first among those with the maximal associated value:
it appears in the list with value `v`, no value in the list exceeds `v`,
and everything strictly before it has a strictly smaller value. -/
def FirstMax {α : Type} (l : List (α × ℚ)) (a : α) : Prop :=
  ∃ v pre post, l = pre ++ (a, v) :: post ∧
    (∀ q ∈ l, q.2 ≤ v) ∧ ∀ q ∈ pre, q.2 < v

theorem maxByFirst_FirstMax {α : Type} {l : List (α × ℚ)} {a : α}
    (h : maxByFirst l = some a) : FirstMax l a := by
  cases l with
  | nil => simp [maxByFirst] at h
  | cons p rest =>
    simp only [maxByFirst, Option.some.injEq] at h
    obtain ⟨hle1, hle2⟩ := maxPairAux_le rest p
    have hpair : (a, (maxPairAux p rest).2) = maxPairAux p rest := by
      rw [← h]
    have hall : ∀ q ∈ p :: rest, q.2 ≤ (maxPairAux p rest).2 := by
      intro q hq
      rcases List.mem_cons.mp hq with rfl | hq2
      · exact hle1
      · exact hle2 q hq2
    rcases maxPairAux_first rest p with hfix | ⟨pre, post, hdec, hlt, hpre⟩
    · refine ⟨(maxPairAux p rest).2, [], rest, ?_, hall, by simp⟩
      rw [List.nil_append, hpair, hfix]
    · refine ⟨(maxPairAux p rest).2, p :: pre, post, ?_, hall, ?_⟩
      · rw [hpair]
        conv_lhs => rw [hdec]
        simp
      · intro q hq
        rcases List.mem_cons.mp hq with rfl | hq2
        · exact hlt
        · exact hpre q hq2

theorem maxByFirst_isSome {α : Type} (l : List (α × ℚ)) (hne : l ≠ []) :
    (maxByFirst l).isSome = true := by
  cases l with
  | nil => exact absurd rfl hne
  | cons p rest => simp [maxByFirst]

/-! ## Structural lemmas about `ThompsonBandit` -/

/-- Well-formedness of a `ThompsonBandit` state: every arm-state dict has
exactly the fixed arm list as keys (as built by the dict comprehensions in
`__init__` and `_get_state`). -/
def ThompsonBandit.WF (b : ThompsonBandit) : Prop :=
  armKeys b.global_state = b.arms ∧ ∀ p ∈ b.contextual_state, armKeys p.2 = b.arms

theorem TS_WF_init (arms : List Arm) (ap bp : ℚ) : (ThompsonBandit.init arms ap bp).WF := by
  constructor
  · exact armKeys_seedMap arms _
  · intro p hp
    simp [ThompsonBandit.init] at hp

theorem TS_ensureCtx_fields (b : ThompsonBandit) (ctx : Option Ctx) :
    (b.ensureCtx ctx).arms = b.arms ∧ (b.ensureCtx ctx).alpha_prior = b.alpha_prior ∧
    (b.ensureCtx ctx).beta_prior = b.beta_prior ∧
    (b.ensureCtx ctx).global_state = b.global_state := by
  cases ctx <;> exact ⟨rfl, rfl, rfl, rfl⟩

theorem TS_setPair_fields (b : ThompsonBandit) (ctx : Option Ctx) (arm : Arm)
    (f : BetaState → BetaState) :
    (b.setPair ctx arm f).arms = b.arms ∧ (b.setPair ctx arm f).alpha_prior = b.alpha_prior ∧
    (b.setPair ctx arm f).beta_prior = b.beta_prior := by
  cases ctx <;> exact ⟨rfl, rfl, rfl⟩

/-- An `update` step either only ensures the context (unknown arm, the
`KeyError` case) or ensures it and then rewrites the (context, arm)
cell. -/
theorem TS_step_update_cases (b : ThompsonBandit) (arm : Arm) (reward : ℚ) (ctx : Option Ctx) :
    (lookupArm ((b.ensureCtx ctx).viewState ctx) arm = none ∧
      b.step (TOp.update arm reward ctx) = b.ensureCtx ctx) ∨
    ∃ st, lookupArm ((b.ensureCtx ctx).viewState ctx) arm = some st ∧
      b.step (TOp.update arm reward ctx) =
        (b.ensureCtx ctx).setPair ctx arm
          (fun s => ⟨s.alpha + clip01 reward, s.beta + (1 - clip01 reward)⟩) := by
  cases hl : lookupArm ((b.ensureCtx ctx).viewState ctx) arm with
  | none =>
    left
    refine ⟨rfl, ?_⟩
    show ((b.update arm reward ctx).getD (b.ensureCtx ctx)) = _
    simp only [ThompsonBandit.update]
    rw [hl]
    rfl
  | some st =>
    right
    refine ⟨st, rfl, ?_⟩
    show ((b.update arm reward ctx).getD (b.ensureCtx ctx)) = _
    simp only [ThompsonBandit.update]
    rw [hl]
    rfl

theorem TS_step_fields (b : ThompsonBandit) (op : TOp) :
    (b.step op).arms = b.arms ∧ (b.step op).alpha_prior = b.alpha_prior ∧
    (b.step op).beta_prior = b.beta_prior := by
  cases op with
  | select draw ctx => exact ⟨(TS_ensureCtx_fields b ctx).1, (TS_ensureCtx_fields b ctx).2.1,
      (TS_ensureCtx_fields b ctx).2.2.1⟩
  | getStats ctx => exact ⟨(TS_ensureCtx_fields b ctx).1, (TS_ensureCtx_fields b ctx).2.1,
      (TS_ensureCtx_fields b ctx).2.2.1⟩
  | update arm reward ctx =>
    rcases TS_step_update_cases b arm reward ctx with ⟨hnone, heq⟩ | ⟨st, hl, heq⟩
    · rw [heq]
      exact ⟨(TS_ensureCtx_fields b ctx).1, (TS_ensureCtx_fields b ctx).2.1,
        (TS_ensureCtx_fields b ctx).2.2.1⟩
    · rw [heq]
      obtain ⟨e1, e2, e3, _⟩ := TS_ensureCtx_fields b ctx
      obtain ⟨s1, s2, s3⟩ := TS_setPair_fields (b.ensureCtx ctx) ctx arm _
      exact ⟨s1.trans e1, s2.trans e2, s3.trans e3⟩

theorem TS_runTS_fields (b : ThompsonBandit) (ops : List TOp) :
    (runTS b ops).arms = b.arms ∧ (runTS b ops).alpha_prior = b.alpha_prior ∧
    (runTS b ops).beta_prior = b.beta_prior := by
  induction ops generalizing b with
  | nil => exact ⟨rfl, rfl, rfl⟩
  | cons op rest ih =>
    obtain ⟨h1, h2, h3⟩ := ih (b.step op)
    obtain ⟨g1, g2, g3⟩ := TS_step_fields b op
    exact ⟨h1.trans g1, h2.trans g2, h3.trans g3⟩

theorem TS_WF_ensureCtx {b : ThompsonBandit} (h : b.WF) (ctx : Option Ctx) :
    (b.ensureCtx ctx).WF := by
  obtain ⟨hg, hc⟩ := h
  cases ctx with
  | none => exact ⟨hg, hc⟩
  | some c =>
    refine ⟨hg, ?_⟩
    intro p hp
    rcases mem_ensureCtxList hp with hmem | rfl
    · exact hc p hmem
    · exact armKeys_seedMap b.arms _

theorem TS_WF_setPair {b : ThompsonBandit} (h : b.WF) (ctx : Option Ctx) (arm : Arm)
    (f : BetaState → BetaState) : (b.setPair ctx arm f).WF := by
  obtain ⟨hg, hc⟩ := h
  cases ctx with
  | none =>
    refine ⟨?_, hc⟩
    rw [ThompsonBandit.setPair]
    rw [armKeys_modifyArm]
    exact hg
  | some c =>
    refine ⟨hg, ?_⟩
    intro p hp
    rcases mem_setCtxList hp with hmem | ⟨q, hq, rfl⟩
    · exact hc p hmem
    · show armKeys (modifyArm q.2 arm f) = b.arms
      rw [armKeys_modifyArm]
      exact hc q hq

theorem TS_WF_step {b : ThompsonBandit} (h : b.WF) (op : TOp) : (b.step op).WF := by
  cases op with
  | select draw ctx => exact TS_WF_ensureCtx h ctx
  | getStats ctx => exact TS_WF_ensureCtx h ctx
  | update arm reward ctx =>
    rcases TS_step_update_cases b arm reward ctx with ⟨hnone, heq⟩ | ⟨st, hl, heq⟩
    · rw [heq]; exact TS_WF_ensureCtx h ctx
    · rw [heq]; exact TS_WF_setPair (TS_WF_ensureCtx h ctx) ctx arm _

theorem TS_WF_runTS {b : ThompsonBandit} (h : b.WF) (ops : List TOp) : (runTS b ops).WF := by
  induction ops generalizing b with
  | nil => exact h
  | cons op rest ih => exact ih (TS_WF_step h op)

theorem TS_armKeys_viewState {b : ThompsonBandit} (h : b.WF) (ctx : Option Ctx) :
    armKeys (b.viewState ctx) = b.arms := by
  obtain ⟨hg, hc⟩ := h
  cases ctx with
  | none => exact hg
  | some c =>
    rw [ThompsonBandit.viewState]
    cases hf : findCtx b.contextual_state c with
    | none => exact armKeys_seedMap b.arms _
    | some m => exact hc (c, m) (findCtx_mem hf)

theorem TS_viewState_ensureCtx (b : ThompsonBandit) (ctx ctx2 : Option Ctx) :
    (b.ensureCtx ctx2).viewState ctx = b.viewState ctx := by
  cases ctx2 with
  | none => rfl
  | some c2 =>
    cases ctx with
    | none => rfl
    | some c =>
      show (findCtx (ensureCtxList b.contextual_state c2 _) c).getD _ = _
      by_cases hc : c = c2
      · subst hc
        rw [findCtx_ensure_self]
        rw [ThompsonBandit.viewState]
        cases hf : findCtx b.contextual_state c <;> simp [hf]
      · rw [findCtx_ensure_other _ _ _ _ hc]
        rfl

theorem TS_viewState_setPair_same (b : ThompsonBandit) (ctx : Option Ctx) (arm : Arm)
    (f : BetaState → BetaState)
    (hpresent : ctx = none ∨ ∃ c m, ctx = some c ∧ findCtx b.contextual_state c = some m) :
    (b.setPair ctx arm f).viewState ctx = modifyArm (b.viewState ctx) arm f := by
  rcases hpresent with rfl | ⟨c, m, rfl, hf⟩
  · rfl
  · show (findCtx (setCtxList b.contextual_state c _) c).getD _ = _
    rw [findCtx_set_self, hf]
    simp [ThompsonBandit.viewState, hf, modifyArm]

theorem TS_viewState_setPair_other (b : ThompsonBandit) (ctx ctx2 : Option Ctx) (arm : Arm)
    (f : BetaState → BetaState) (hne : ctx2 ≠ ctx) :
    (b.setPair ctx arm f).viewState ctx2 = b.viewState ctx2 := by
  cases ctx with
  | none =>
    cases ctx2 with
    | none => exact absurd rfl hne
    | some c2 => rfl
  | some c =>
    cases ctx2 with
    | none => rfl
    | some c2 =>
      have hcc : c2 ≠ c := fun hh => hne (by rw [hh])
      show (findCtx (setCtxList b.contextual_state c _) c2).getD _ = _
      rw [findCtx_set_other _ _ _ _ hcc]
      rfl

/-- The context dict is present after `ensureCtx` of that context. -/
theorem TS_ensureCtx_present (b : ThompsonBandit) (c : Ctx) :
    ∃ m, findCtx (b.ensureCtx (some c)).contextual_state c = some m := by
  exact ⟨_, findCtx_ensure_self b.contextual_state c _⟩

/-! ## Structural lemmas about `EpsilonGreedyBandit` -/

/-- Well-formedness of an `EpsilonGreedyBandit` state. -/
def EpsilonGreedyBandit.WF (b : EpsilonGreedyBandit) : Prop :=
  armKeys b.global_state = b.arms ∧ ∀ p ∈ b.contextual_state, armKeys p.2 = b.arms

theorem EG_WF_init (arms : List Arm) (eps : ℚ) : (EpsilonGreedyBandit.init arms eps).WF := by
  constructor
  · exact armKeys_seedMap arms _
  · intro p hp
    simp [EpsilonGreedyBandit.init] at hp

theorem EG_ensureCtx_fields (b : EpsilonGreedyBandit) (ctx : Option Ctx) :
    (b.ensureCtx ctx).arms = b.arms ∧ (b.ensureCtx ctx).epsilon = b.epsilon ∧
    (b.ensureCtx ctx).global_state = b.global_state := by
  cases ctx <;> exact ⟨rfl, rfl, rfl⟩

theorem EG_setPair_fields (b : EpsilonGreedyBandit) (ctx : Option Ctx) (arm : Arm)
    (f : EGState → EGState) :
    (b.setPair ctx arm f).arms = b.arms ∧ (b.setPair ctx arm f).epsilon = b.epsilon := by
  cases ctx <;> exact ⟨rfl, rfl⟩

/-- An `update` step on the epsilon-greedy bandit either only ensures the
context (unknown arm) or ensures it and rewrites the (context, arm)
cell. -/
theorem EG_step_update_cases (b : EpsilonGreedyBandit) (arm : Arm) (reward : ℚ)
    (ctx : Option Ctx) :
    (lookupArm ((b.ensureCtx ctx).viewState ctx) arm = none ∧
      b.step (EOp.update arm reward ctx) = b.ensureCtx ctx) ∨
    ∃ st, lookupArm ((b.ensureCtx ctx).viewState ctx) arm = some st ∧
      b.step (EOp.update arm reward ctx) =
        (b.ensureCtx ctx).setPair ctx arm
          (fun s => ⟨s.total_reward + clip01 reward, s.count + 1⟩) := by
  cases hl : lookupArm ((b.ensureCtx ctx).viewState ctx) arm with
  | none =>
    left
    refine ⟨rfl, ?_⟩
    show ((b.update arm reward ctx).getD (b.ensureCtx ctx)) = _
    simp only [EpsilonGreedyBandit.update]
    rw [hl]
    rfl
  | some st =>
    right
    refine ⟨st, rfl, ?_⟩
    show ((b.update arm reward ctx).getD (b.ensureCtx ctx)) = _
    simp only [EpsilonGreedyBandit.update]
    rw [hl]
    rfl

theorem EG_step_fields (b : EpsilonGreedyBandit) (op : EOp) :
    (b.step op).arms = b.arms ∧ (b.step op).epsilon = b.epsilon := by
  cases op with
  | select rand choice ctx =>
    exact ⟨(EG_ensureCtx_fields b ctx).1, (EG_ensureCtx_fields b ctx).2.1⟩
  | getStats ctx => exact ⟨(EG_ensureCtx_fields b ctx).1, (EG_ensureCtx_fields b ctx).2.1⟩
  | update arm reward ctx =>
    rcases EG_step_update_cases b arm reward ctx with ⟨hnone, heq⟩ | ⟨st, hl, heq⟩
    · rw [heq]
      exact ⟨(EG_ensureCtx_fields b ctx).1, (EG_ensureCtx_fields b ctx).2.1⟩
    · rw [heq]
      obtain ⟨e1, e2, _⟩ := EG_ensureCtx_fields b ctx
      obtain ⟨s1, s2⟩ := EG_setPair_fields (b.ensureCtx ctx) ctx arm _
      exact ⟨s1.trans e1, s2.trans e2⟩

theorem EG_runEG_fields (b : EpsilonGreedyBandit) (ops : List EOp) :
    (runEG b ops).arms = b.arms ∧ (runEG b ops).epsilon = b.epsilon := by
  induction ops generalizing b with
  | nil => exact ⟨rfl, rfl⟩
  | cons op rest ih =>
    obtain ⟨h1, h2⟩ := ih (b.step op)
    obtain ⟨g1, g2⟩ := EG_step_fields b op
    exact ⟨h1.trans g1, h2.trans g2⟩

theorem EG_WF_ensureCtx {b : EpsilonGreedyBandit} (h : b.WF) (ctx : Option Ctx) :
    (b.ensureCtx ctx).WF := by
  obtain ⟨hg, hc⟩ := h
  cases ctx with
  | none => exact ⟨hg, hc⟩
  | some c =>
    refine ⟨hg, ?_⟩
    intro p hp
    rcases mem_ensureCtxList hp with hmem | rfl
    · exact hc p hmem
    · exact armKeys_seedMap b.arms _

theorem EG_WF_setPair {b : EpsilonGreedyBandit} (h : b.WF) (ctx : Option Ctx) (arm : Arm)
    (f : EGState → EGState) : (b.setPair ctx arm f).WF := by
  obtain ⟨hg, hc⟩ := h
  cases ctx with
  | none =>
    refine ⟨?_, hc⟩
    rw [EpsilonGreedyBandit.setPair]
    rw [armKeys_modifyArm]
    exact hg
  | some c =>
    refine ⟨hg, ?_⟩
    intro p hp
    rcases mem_setCtxList hp with hmem | ⟨q, hq, rfl⟩
    · exact hc p hmem
    · show armKeys (modifyArm q.2 arm f) = b.arms
      rw [armKeys_modifyArm]
      exact hc q hq

theorem EG_WF_step {b : EpsilonGreedyBandit} (h : b.WF) (op : EOp) : (b.step op).WF := by
  cases op with
  | select rand choice ctx => exact EG_WF_ensureCtx h ctx
  | getStats ctx => exact EG_WF_ensureCtx h ctx
  | update arm reward ctx =>
    rcases EG_step_update_cases b arm reward ctx with ⟨hnone, heq⟩ | ⟨st, hl, heq⟩
    · rw [heq]; exact EG_WF_ensureCtx h ctx
    · rw [heq]; exact EG_WF_setPair (EG_WF_ensureCtx h ctx) ctx arm _

theorem EG_WF_runEG {b : EpsilonGreedyBandit} (h : b.WF) (ops : List EOp) : (runEG b ops).WF := by
  induction ops generalizing b with
  | nil => exact h
  | cons op rest ih => exact ih (EG_WF_step h op)

theorem EG_armKeys_viewState {b : EpsilonGreedyBandit} (h : b.WF) (ctx : Option Ctx) :
    armKeys (b.viewState ctx) = b.arms := by
  obtain ⟨hg, hc⟩ := h
  cases ctx with
  | none => exact hg
  | some c =>
    rw [EpsilonGreedyBandit.viewState]
    cases hf : findCtx b.contextual_state c with
    | none => exact armKeys_seedMap b.arms _
    | some m => exact hc (c, m) (findCtx_mem hf)

theorem EG_viewState_ensureCtx (b : EpsilonGreedyBandit) (ctx ctx2 : Option Ctx) :
    (b.ensureCtx ctx2).viewState ctx = b.viewState ctx := by
  cases ctx2 with
  | none => rfl
  | some c2 =>
    cases ctx with
    | none => rfl
    | some c =>
      show (findCtx (ensureCtxList b.contextual_state c2 _) c).getD _ = _
      by_cases hc : c = c2
      · subst hc
        rw [findCtx_ensure_self]
        rw [EpsilonGreedyBandit.viewState]
        cases hf : findCtx b.contextual_state c <;> simp [hf]
      · rw [findCtx_ensure_other _ _ _ _ hc]
        rfl

/-! ## Failure conditions of `update` and `select` -/

theorem TS_update_eq_none_iff {b : ThompsonBandit} (h : b.WF) (arm : Arm) (reward : ℚ)
    (ctx : Option Ctx) : b.update arm reward ctx = none ↔ arm ∉ b.arms := by
  have hk : armKeys ((b.ensureCtx ctx).viewState ctx) = b.arms := by
    rw [TS_armKeys_viewState (TS_WF_ensureCtx h ctx) ctx, (TS_ensureCtx_fields b ctx).1]
  simp only [ThompsonBandit.update]
  cases hl : lookupArm ((b.ensureCtx ctx).viewState ctx) arm with
  | none =>
    have hni := (lookupArm_eq_none_iff _ arm).mp hl
    rw [hk] at hni
    simp [hni]
  | some st =>
    have hmem : arm ∈ armKeys ((b.ensureCtx ctx).viewState ctx) := by
      refine (lookupArm_isSome_iff _ arm).mp ?_
      rw [hl]
      rfl
    rw [hk] at hmem
    simp [hmem]

theorem EG_update_eq_none_iff {b : EpsilonGreedyBandit} (h : b.WF) (arm : Arm) (reward : ℚ)
    (ctx : Option Ctx) : b.update arm reward ctx = none ↔ arm ∉ b.arms := by
  have hk : armKeys ((b.ensureCtx ctx).viewState ctx) = b.arms := by
    rw [EG_armKeys_viewState (EG_WF_ensureCtx h ctx) ctx, (EG_ensureCtx_fields b ctx).1]
  simp only [EpsilonGreedyBandit.update]
  cases hl : lookupArm ((b.ensureCtx ctx).viewState ctx) arm with
  | none =>
    have hni := (lookupArm_eq_none_iff _ arm).mp hl
    rw [hk] at hni
    simp [hni]
  | some st =>
    have hmem : arm ∈ armKeys ((b.ensureCtx ctx).viewState ctx) := by
      refine (lookupArm_isSome_iff _ arm).mp ?_
      rw [hl]
      rfl
    rw [hk] at hmem
    simp [hmem]

theorem TS_selectArm_isSome {b : ThompsonBandit} (h : b.WF) (hne : b.arms ≠ [])
    (draw : Arm → ℚ) (ctx : Option Ctx) : (b.selectArm draw ctx).isSome = true := by
  have hk : armKeys ((b.ensureCtx ctx).viewState ctx) = b.arms := by
    rw [TS_armKeys_viewState (TS_WF_ensureCtx h ctx) ctx, (TS_ensureCtx_fields b ctx).1]
  have hvne : (b.ensureCtx ctx).viewState ctx ≠ [] := by
    intro hh
    rw [hh] at hk
    exact hne hk.symm
  apply maxByFirst_isSome
  simp only [ne_eq, List.map_eq_nil_iff]
  exact hvne

theorem EG_selectArm_isSome {b : EpsilonGreedyBandit} (h : b.WF) (hne : b.arms ≠ [])
    (rand : ℚ) (choice : ℕ) (ctx : Option Ctx) :
    (b.selectArm rand choice ctx).isSome = true := by
  unfold EpsilonGreedyBandit.selectArm
  by_cases hr : rand < b.epsilon
  · rw [if_pos hr]
    have hlen : 0 < b.arms.length := List.length_pos.mpr hne
    rw [List.get?_eq_get (Nat.mod_lt _ hlen)]
    rfl
  · rw [if_neg hr]
    have hk : armKeys ((b.ensureCtx ctx).viewState ctx) = b.arms := by
      rw [EG_armKeys_viewState (EG_WF_ensureCtx h ctx) ctx, (EG_ensureCtx_fields b ctx).1]
    have hvne : (b.ensureCtx ctx).viewState ctx ≠ [] := by
      intro hh
      rw [hh] at hk
      exact hne hk.symm
    apply maxByFirst_isSome
    simp only [ne_eq, List.map_eq_nil_iff]
    exact hvne

/-- C2 (counterexample): constructing a policy with an empty arm set does
not fail — `__init__` performs no validation, so the constructed bandit
simply has an empty arm list — and a subsequent `select` call on it fails,
contradicting "fatal at construction, not at call time". -/
theorem C2_counterexample :
    (ThompsonBandit.init [] 1 1).arms = [] ∧
    (EpsilonGreedyBandit.init [] 1).arms = [] ∧
    ThompsonBandit.selectArm (ThompsonBandit.init [] 1 1) (fun a => 0) none = none ∧
    EpsilonGreedyBandit.selectArm (EpsilonGreedyBandit.init [] 1) 0 0 none = none := by
  exact ⟨rfl, rfl, rfl, by norm_num [EpsilonGreedyBandit.selectArm, EpsilonGreedyBandit.init]⟩

/-- C2 (amended): constructing a bandit policy (either variant) with an
empty arm set succeeds — there is no `EmptyArmSet` check in either
constructor — and instead every later `select` call fails (the arm dict is
empty), as does every `update` call. -/
theorem C2_amended_empty_arms_fail_at_call_time (ap bp eps reward : ℚ) (draw : Arm → ℚ)
    (rand : ℚ) (choice : ℕ) (ctx : Option Ctx) (arm : Arm) :
    (ThompsonBandit.init [] ap bp).arms = [] ∧
    ThompsonBandit.selectArm (ThompsonBandit.init [] ap bp) draw ctx = none ∧
    ThompsonBandit.update (ThompsonBandit.init [] ap bp) arm reward ctx = none ∧
    (EpsilonGreedyBandit.init [] eps).arms = [] ∧
    EpsilonGreedyBandit.selectArm (EpsilonGreedyBandit.init [] eps) rand choice ctx = none ∧
    EpsilonGreedyBandit.update (EpsilonGreedyBandit.init [] eps) arm reward ctx = none := by
  have hwfT := TS_WF_init [] ap bp
  have hwfE := EG_WF_init [] eps
  refine ⟨?_, ?_, ?_, ?_, ?_, ?_⟩
  · rfl
  · have hk : armKeys (((ThompsonBandit.init [] ap bp).ensureCtx ctx).viewState ctx) = [] := by
      rw [TS_armKeys_viewState (TS_WF_ensureCtx hwfT ctx) ctx,
        (TS_ensureCtx_fields _ ctx).1]
      exact rfl
    have hnil := (armKeys_nil_iff _).mp hk
    unfold ThompsonBandit.selectArm
    rw [hnil]
    rfl
  · exact (TS_update_eq_none_iff hwfT arm reward ctx).mpr (by simp [ThompsonBandit.init])
  · rfl
  · unfold EpsilonGreedyBandit.selectArm
    by_cases hr : rand < (EpsilonGreedyBandit.init [] eps).epsilon
    · rw [if_pos hr]
      rfl
    · have hk : armKeys (((EpsilonGreedyBandit.init [] eps).ensureCtx ctx).viewState ctx)
          = [] := by
        rw [EG_armKeys_viewState (EG_WF_ensureCtx hwfE ctx) ctx,
          (EG_ensureCtx_fields _ ctx).1]
        exact rfl
      have hnil := (armKeys_nil_iff _).mp hk
      rw [if_neg hr, hnil]
      rfl
  · exact (EG_update_eq_none_iff hwfE arm reward ctx).mpr (by simp [EpsilonGreedyBandit.init])

/-- C8: in every reachable state of either bandit, an `update` call fails
exactly when its arm is outside the fixed arm set (in every context,
including unseen ones, which are lazily created and are never themselves an
error), while a `select` call with any context — seen or unseen — succeeds
whenever the arm set is nonempty. -/
theorem C8_unknown_arm_fails_unknown_context_never (arms : List Arm) (ap bp eps reward : ℚ)
    (ops : List TOp) (eops : List EOp) (arm : Arm) (ctx : Option Ctx) (draw : Arm → ℚ)
    (rand : ℚ) (choice : ℕ) :
    ((runTS (ThompsonBandit.init arms ap bp) ops).update arm reward ctx = none ↔
      arm ∉ arms) ∧
    (arms ≠ [] →
      ((runTS (ThompsonBandit.init arms ap bp) ops).selectArm draw ctx).isSome = true) ∧
    ((runEG (EpsilonGreedyBandit.init arms eps) eops).update arm reward ctx = none ↔
      arm ∉ arms) ∧
    (arms ≠ [] →
      ((runEG (EpsilonGreedyBandit.init arms eps) eops).selectArm rand choice ctx).isSome
        = true) := by
  have hwfT := TS_WF_runTS (TS_WF_init arms ap bp) ops
  have haT := (TS_runTS_fields (ThompsonBandit.init arms ap bp) ops).1
  have hwfE := EG_WF_runEG (EG_WF_init arms eps) eops
  have haE := (EG_runEG_fields (EpsilonGreedyBandit.init arms eps) eops).1
  refine ⟨?_, ?_, ?_, ?_⟩
  · rw [TS_update_eq_none_iff hwfT arm reward ctx, haT]
    exact Iff.rfl
  · intro hne
    refine TS_selectArm_isSome hwfT ?_ draw ctx
    rw [haT]
    exact hne
  · rw [EG_update_eq_none_iff hwfE arm reward ctx, haE]
    exact Iff.rfl
  · intro hne
    refine EG_selectArm_isSome hwfE ?_ rand choice ctx
    rw [haE]
    exact hne

theorem C8_witness :
    ((runTS (ThompsonBandit.init ["A"] 1 1) []).update "Z" 1 none = none ↔ "Z" ∉ ["A"]) ∧
    ((runTS (ThompsonBandit.init ["A"] 1 1) []).selectArm (fun a => 0) none).isSome = true ∧
    ((runEG (EpsilonGreedyBandit.init ["A"] 1) []).update "Z" 1 none = none ↔ "Z" ∉ ["A"]) ∧
    ((runEG (EpsilonGreedyBandit.init ["A"] 1) []).selectArm 0 0 none).isSome = true := by
  obtain ⟨h1, h2, h3, h4⟩ := C8_unknown_arm_fails_unknown_context_never
    ["A"] 1 1 1 1 [] [] "Z" none (fun a => 0) 0 0
  exact ⟨h1, h2 (by simp), h3, h4 (by simp)⟩

/-! ## C3: the priors are never decreased -/

theorem clip01_nonneg (r : ℚ) : 0 ≤ clip01 r :=
  le_max_left 0 _

theorem clip01_le_one (r : ℚ) : clip01 r ≤ 1 :=
  max_le (by norm_num) (min_le_left 1 _)

/-- Every Beta cell in every state dict dominates the priors (and the
recorded prior fields are the construction-time priors). -/
def TSdominates (ap bp : ℚ) (b : ThompsonBandit) : Prop :=
  b.alpha_prior = ap ∧ b.beta_prior = bp ∧
  (∀ p ∈ b.global_state, ap ≤ p.2.alpha ∧ bp ≤ p.2.beta) ∧
  ∀ q ∈ b.contextual_state, ∀ p ∈ q.2, ap ≤ p.2.alpha ∧ bp ≤ p.2.beta

theorem TSdominates_init (arms : List Arm) (ap bp : ℚ) :
    TSdominates ap bp (ThompsonBandit.init arms ap bp) := by
  refine ⟨rfl, rfl, ?_, ?_⟩
  · intro p hp
    rw [mem_seedMap hp]
    exact ⟨le_refl ap, le_refl bp⟩
  · intro q hq
    simp [ThompsonBandit.init] at hq

theorem TSdominates_ensureCtx {ap bp : ℚ} {b : ThompsonBandit} (h : TSdominates ap bp b)
    (ctx : Option Ctx) : TSdominates ap bp (b.ensureCtx ctx) := by
  obtain ⟨hap, hbp, hg, hc⟩ := h
  cases ctx with
  | none => exact ⟨hap, hbp, hg, hc⟩
  | some c =>
    refine ⟨hap, hbp, hg, ?_⟩
    intro q hq
    rcases mem_ensureCtxList hq with hmem | rfl
    · exact hc q hmem
    · intro p hp
      rw [mem_seedMap hp, hap, hbp]
      exact ⟨le_refl ap, le_refl bp⟩

theorem TS_updateCell_dominates {ap bp : ℚ} {st : BetaState} (reward : ℚ)
    (h : ap ≤ st.alpha ∧ bp ≤ st.beta) :
    ap ≤ st.alpha + clip01 reward ∧ bp ≤ st.beta + (1 - clip01 reward) := by
  constructor
  · exact le_trans h.1 (le_add_of_nonneg_right (clip01_nonneg reward))
  · refine le_trans h.2 (le_add_of_nonneg_right ?_)
    have := clip01_le_one reward
    linarith

theorem TSdominates_setPair {ap bp : ℚ} {b : ThompsonBandit} (h : TSdominates ap bp b)
    (ctx : Option Ctx) (arm : Arm) (reward : ℚ) :
    TSdominates ap bp (b.setPair ctx arm
      (fun s => ⟨s.alpha + clip01 reward, s.beta + (1 - clip01 reward)⟩)) := by
  obtain ⟨hap, hbp, hg, hc⟩ := h
  cases ctx with
  | none =>
    refine ⟨hap, hbp, ?_, hc⟩
    intro p hp
    rcases mem_modifyArm (show p ∈ modifyArm b.global_state arm
        (fun s => ⟨s.alpha + clip01 reward, s.beta + (1 - clip01 reward)⟩) from hp)
      with hmem | ⟨q, hq, rfl⟩
    · exact hg p hmem
    · exact TS_updateCell_dominates reward (hg q hq)
  | some c =>
    refine ⟨hap, hbp, hg, ?_⟩
    intro q hq
    rcases mem_setCtxList hq with hmem | ⟨q2, hq2, rfl⟩
    · exact hc q hmem
    · intro p hp
      rcases mem_modifyArm (show p ∈ modifyArm q2.2 arm
          (fun s => ⟨s.alpha + clip01 reward, s.beta + (1 - clip01 reward)⟩) from hp)
        with hmem | ⟨q3, hq3, rfl⟩
      · exact hc q2 hq2 p hmem
      · exact TS_updateCell_dominates reward (hc q2 hq2 q3 hq3)

theorem TSdominates_step {ap bp : ℚ} {b : ThompsonBandit} (h : TSdominates ap bp b)
    (op : TOp) : TSdominates ap bp (b.step op) := by
  cases op with
  | select draw ctx => exact TSdominates_ensureCtx h ctx
  | getStats ctx => exact TSdominates_ensureCtx h ctx
  | update arm reward ctx =>
    rcases TS_step_update_cases b arm reward ctx with ⟨hnone, heq⟩ | ⟨st, hl, heq⟩
    · rw [heq]; exact TSdominates_ensureCtx h ctx
    · rw [heq]; exact TSdominates_setPair (TSdominates_ensureCtx h ctx) ctx arm reward

theorem TSdominates_runTS {ap bp : ℚ} {b : ThompsonBandit} (h : TSdominates ap bp b)
    (ops : List TOp) : TSdominates ap bp (runTS b ops) := by
  induction ops generalizing b with
  | nil => exact h
  | cons op rest ih => exact ih (TSdominates_step h op)

theorem TSdominates_viewState {ap bp : ℚ} {b : ThompsonBandit} (h : TSdominates ap bp b)
    (ctx : Option Ctx) : ∀ p ∈ b.viewState ctx, ap ≤ p.2.alpha ∧ bp ≤ p.2.beta := by
  obtain ⟨hap, hbp, hg, hc⟩ := h
  cases ctx with
  | none => exact hg
  | some c =>
    rw [ThompsonBandit.viewState]
    cases hf : findCtx b.contextual_state c with
    | some m => exact hc (c, m) (findCtx_mem hf)
    | none =>
      intro p hp
      rw [mem_seedMap hp, hap, hbp]
      exact ⟨le_refl ap, le_refl bp⟩

/-- Every sample-average cell has a non-negative pull count. -/
def EGcounts (b : EpsilonGreedyBandit) : Prop :=
  (∀ p ∈ b.global_state, 0 ≤ p.2.count) ∧
  ∀ q ∈ b.contextual_state, ∀ p ∈ q.2, 0 ≤ p.2.count

theorem EGcounts_init (arms : List Arm) (eps : ℚ) :
    EGcounts (EpsilonGreedyBandit.init arms eps) := by
  refine ⟨?_, ?_⟩
  · intro p hp
    rw [mem_seedMap hp]
  · intro q hq
    simp [EpsilonGreedyBandit.init] at hq

theorem EGcounts_ensureCtx {b : EpsilonGreedyBandit} (h : EGcounts b) (ctx : Option Ctx) :
    EGcounts (b.ensureCtx ctx) := by
  obtain ⟨hg, hc⟩ := h
  cases ctx with
  | none => exact ⟨hg, hc⟩
  | some c =>
    refine ⟨hg, ?_⟩
    intro q hq
    rcases mem_ensureCtxList hq with hmem | rfl
    · exact hc q hmem
    · intro p hp
      rw [mem_seedMap hp]

theorem EGcounts_setPair {b : EpsilonGreedyBandit} (h : EGcounts b) (ctx : Option Ctx)
    (arm : Arm) (reward : ℚ) :
    EGcounts (b.setPair ctx arm (fun s => ⟨s.total_reward + clip01 reward, s.count + 1⟩)) := by
  obtain ⟨hg, hc⟩ := h
  cases ctx with
  | none =>
    refine ⟨?_, hc⟩
    intro p hp
    rcases mem_modifyArm (show p ∈ modifyArm b.global_state arm
        (fun s => ⟨s.total_reward + clip01 reward, s.count + 1⟩) from hp)
      with hmem | ⟨q, hq, rfl⟩
    · exact hg p hmem
    · exact le_trans (hg q hq) (by simp)
  | some c =>
    refine ⟨hg, ?_⟩
    intro q hq
    rcases mem_setCtxList hq with hmem | ⟨q2, hq2, rfl⟩
    · exact hc q hmem
    · intro p hp
      rcases mem_modifyArm (show p ∈ modifyArm q2.2 arm
          (fun s => ⟨s.total_reward + clip01 reward, s.count + 1⟩) from hp)
        with hmem | ⟨q3, hq3, rfl⟩
      · exact hc q2 hq2 p hmem
      · exact le_trans (hc q2 hq2 q3 hq3) (by simp)

theorem EGcounts_step {b : EpsilonGreedyBandit} (h : EGcounts b) (op : EOp) :
    EGcounts (b.step op) := by
  cases op with
  | select rand choice ctx => exact EGcounts_ensureCtx h ctx
  | getStats ctx => exact EGcounts_ensureCtx h ctx
  | update arm reward ctx =>
    rcases EG_step_update_cases b arm reward ctx with ⟨hnone, heq⟩ | ⟨st, hl, heq⟩
    · rw [heq]; exact EGcounts_ensureCtx h ctx
    · rw [heq]; exact EGcounts_setPair (EGcounts_ensureCtx h ctx) ctx arm reward

theorem EGcounts_runEG {b : EpsilonGreedyBandit} (h : EGcounts b) (ops : List EOp) :
    EGcounts (runEG b ops) := by
  induction ops generalizing b with
  | nil => exact h
  | cons op rest ih => exact ih (EGcounts_step h op)

theorem EGcounts_viewState {b : EpsilonGreedyBandit} (h : EGcounts b) (ctx : Option Ctx) :
    ∀ p ∈ b.viewState ctx, 0 ≤ p.2.count := by
  obtain ⟨hg, hc⟩ := h
  cases ctx with
  | none => exact hg
  | some c =>
    rw [EpsilonGreedyBandit.viewState]
    cases hf : findCtx b.contextual_state c with
    | some m => exact hc (c, m) (findCtx_mem hf)
    | none =>
      intro p hp
      rw [mem_seedMap hp]

/-- C3: after any sequence of calls with arbitrary real rewards, every
(context, arm) cell satisfies `alpha ≥ alpha_prior` and `beta ≥ beta_prior`
in the Thompson Sampling variant and `count ≥ 0` in the epsilon-greedy
variant: each `update` clips its reward to [0,1] before folding it in, so
the parameters never decrease below the priors. -/
theorem C3_parameters_never_decrease (arms : List Arm) (ap bp eps : ℚ)
    (ops : List TOp) (eops : List EOp) (ctx : Option Ctx) (arm : Arm) :
    (∀ st, lookupArm ((runTS (ThompsonBandit.init arms ap bp) ops).viewState ctx) arm
        = some st → ap ≤ st.alpha ∧ bp ≤ st.beta) ∧
    (∀ st, lookupArm ((runEG (EpsilonGreedyBandit.init arms eps) eops).viewState ctx) arm
        = some st → 0 ≤ st.count) := by
  constructor
  · intro st hl
    have hdom := TSdominates_runTS (TSdominates_init arms ap bp) ops
    exact TSdominates_viewState hdom ctx (arm, st) (lookupArm_mem hl)
  · intro st hl
    have hcnt := EGcounts_runEG (EGcounts_init arms eps) eops
    exact EGcounts_viewState hcnt ctx (arm, st) (lookupArm_mem hl)

theorem C3_witness :
    ((1 : ℚ) ≤ (2 : ℚ) ∧ (1 : ℚ) ≤ (1 : ℚ)) ∧ (0 : ℤ) ≤ (1 : ℤ) := by
  have h := C3_parameters_never_decrease ["A"] 1 1 1
    [TOp.update "A" 1 none] [EOp.update "A" 1 none] none "A"
  constructor
  · refine h.1 ⟨2, 1⟩ ?_
    show lookupArm ((runTS (ThompsonBandit.init ["A"] 1 1)
      [TOp.update "A" 1 none]).viewState none) "A" = some ⟨2, 1⟩
    simp only [runTS, List.foldl_cons, List.foldl_nil, ThompsonBandit.step,
      ThompsonBandit.update, ThompsonBandit.ensureCtx, ThompsonBandit.viewState,
      ThompsonBandit.init, ThompsonBandit.setPair, seedMap, List.map_cons, List.map_nil,
      lookupArm, modifyArm, clip01]
    norm_num
  · refine h.2 ⟨1, 1⟩ ?_
    show lookupArm ((runEG (EpsilonGreedyBandit.init ["A"] 1)
      [EOp.update "A" 1 none]).viewState none) "A" = some ⟨1, 1⟩
    simp only [runEG, List.foldl_cons, List.foldl_nil, EpsilonGreedyBandit.step,
      EpsilonGreedyBandit.update, EpsilonGreedyBandit.ensureCtx,
      EpsilonGreedyBandit.viewState, EpsilonGreedyBandit.init, EpsilonGreedyBandit.setPair,
      seedMap, List.map_cons, List.map_nil, lookupArm, modifyArm, clip01]
    norm_num

/-! ## C6: which contexts appear in `get_all_contexts` -/

theorem TS_getAllContexts_setPair (b : ThompsonBandit) (ctx : Option Ctx) (arm : Arm)
    (f : BetaState → BetaState) :
    (b.setPair ctx arm f).getAllContexts = b.getAllContexts := by
  cases ctx with
  | none => rfl
  | some c => exact keys_setCtxList b.contextual_state c _

theorem TS_mem_getAllContexts_ensure (b : ThompsonBandit) (ctx2 : Option Ctx) (c : Ctx) :
    c ∈ (b.ensureCtx ctx2).getAllContexts ↔ c ∈ b.getAllContexts ∨ some c = ctx2 := by
  cases ctx2 with
  | none => simp [ThompsonBandit.ensureCtx]
  | some c2 =>
    show c ∈ (ensureCtxList b.contextual_state c2 _).map Prod.fst ↔ _
    rw [keys_ensureCtxList]
    show _ ∨ _ ↔ c ∈ b.contextual_state.map Prod.fst ∨ _
    simp [Option.some.injEq]

theorem TS_mem_getAllContexts_step (b : ThompsonBandit) (op : TOp) (c : Ctx) :
    c ∈ (b.step op).getAllContexts ↔ c ∈ b.getAllContexts ∨ some c = op.ctx := by
  cases op with
  | select draw ctx => exact TS_mem_getAllContexts_ensure b ctx c
  | getStats ctx => exact TS_mem_getAllContexts_ensure b ctx c
  | update arm reward ctx =>
    rcases TS_step_update_cases b arm reward ctx with ⟨hnone, heq⟩ | ⟨st, hl, heq⟩
    · rw [heq]
      exact TS_mem_getAllContexts_ensure b ctx c
    · rw [heq, TS_getAllContexts_setPair]
      exact TS_mem_getAllContexts_ensure b ctx c

theorem TS_mem_getAllContexts_run (b : ThompsonBandit) (ops : List TOp) (c : Ctx) :
    c ∈ (runTS b ops).getAllContexts ↔
      c ∈ b.getAllContexts ∨ ∃ op ∈ ops, op.ctx = some c := by
  induction ops generalizing b with
  | nil => simp [runTS]
  | cons op rest ih =>
    show c ∈ (runTS (b.step op) rest).getAllContexts ↔ _
    rw [ih (b.step op), TS_mem_getAllContexts_step]
    constructor
    · rintro ((h | h) | h)
      · exact Or.inl h
      · exact Or.inr ⟨op, List.mem_cons_self op rest, h.symm⟩
      · rcases h with ⟨o, ho, hoc⟩
        exact Or.inr ⟨o, List.mem_cons_of_mem _ ho, hoc⟩
    · rintro (h | ⟨o, ho, hoc⟩)
      · exact Or.inl (Or.inl h)
      · rcases List.mem_cons.mp ho with rfl | ho2
        · exact Or.inl (Or.inr hoc.symm)
        · exact Or.inr ⟨o, ho2, hoc⟩

/-- C6 (counterexample): a context passed only to `get_statistics` — never
to `select` or `update` — nevertheless appears in `get_all_contexts`,
because `get_statistics` also calls the lazily-creating `_get_state`. -/
theorem C6_counterexample :
    ("VF", "mecanica") ∈ (runTS (ThompsonBandit.init ["A"] 1 1)
        [TOp.getStats (some ("VF", "mecanica"))]).getAllContexts ∧
    ¬ ∃ op ∈ [TOp.getStats (some ("VF", "mecanica"))],
        op.isSelOrUpd = true ∧ op.ctx = some ("VF", "mecanica") := by
  constructor
  · simp [runTS, ThompsonBandit.step, ThompsonBandit.ensureCtx, ensureCtxList, findCtx,
      ThompsonBandit.getAllContexts, ThompsonBandit.init]
  · rintro ⟨op, hop, h1, h2⟩
    simp only [List.mem_singleton] at hop
    subst hop
    simp [TOp.isSelOrUpd] at h1

/-- C6 (amended): `get_all_contexts` returns exactly the non-global
contexts that have received at least one `select`, `update`, or
`get_statistics` call (each of these lazily creates the context through
`_get_state`), in no guaranteed order. -/
theorem C6_amended_contexts_are_those_touched (arms : List Arm) (ap bp : ℚ)
    (ops : List TOp) (c : Ctx) :
    c ∈ (runTS (ThompsonBandit.init arms ap bp) ops).getAllContexts ↔
      ∃ op ∈ ops, op.ctx = some c := by
  rw [TS_mem_getAllContexts_run]
  have hinit : (ThompsonBandit.init arms ap bp).getAllContexts = [] := rfl
  rw [hinit]
  simp

/-! ## C7: epsilon-greedy with epsilon = 0 is deterministic -/

/-- C7: with `epsilon = 0`, `select` ignores both random draws (the
exploration branch `np.random.random() < 0` is unreachable), so any two
calls on the same state and context return the same arm, the means list it
maximises over is in the fixed arm order, and the returned arm is a first
maximiser of the current sample means (zero-pull arms having mean 0). -/
theorem C7_eps_zero_select_deterministic_first_max (arms : List Arm) (eops : List EOp)
    (ctx : Option Ctx) (r1 r2 : ℚ) (e1 e2 : ℕ) (h1 : 0 ≤ r1) (h2 : 0 ≤ r2) :
    ((runEG (EpsilonGreedyBandit.init arms 0) eops).selectArm r1 e1 ctx =
      (runEG (EpsilonGreedyBandit.init arms 0) eops).selectArm r2 e2 ctx) ∧
    (((runEG (EpsilonGreedyBandit.init arms 0) eops).viewState ctx).map
        (fun p => (p.1, p.2.mean))).map Prod.fst = arms ∧
    ∀ a, (runEG (EpsilonGreedyBandit.init arms 0) eops).selectArm r1 e1 ctx = some a →
      FirstMax (((runEG (EpsilonGreedyBandit.init arms 0) eops).viewState ctx).map
        (fun p => (p.1, p.2.mean))) a := by
  have hwf := EG_WF_runEG (EG_WF_init arms 0) eops
  have heps : (runEG (EpsilonGreedyBandit.init arms 0) eops).epsilon = 0 := by
    rw [(EG_runEG_fields _ eops).2]
    exact rfl
  have hsel : ∀ r e, 0 ≤ r →
      (runEG (EpsilonGreedyBandit.init arms 0) eops).selectArm r e ctx =
        maxByFirst (((runEG (EpsilonGreedyBandit.init arms 0) eops).viewState ctx).map
          (fun p => (p.1, p.2.mean))) := by
    intro r e hr
    unfold EpsilonGreedyBandit.selectArm
    rw [heps, if_neg (not_lt.mpr hr), EG_viewState_ensureCtx]
  refine ⟨?_, ?_, ?_⟩
  · rw [hsel r1 e1 h1, hsel r2 e2 h2]
  · rw [List.map_map]
    have hfst : (Prod.fst ∘ fun p : Arm × EGState => (p.1, p.2.mean)) = Prod.fst := rfl
    rw [hfst]
    show armKeys ((runEG (EpsilonGreedyBandit.init arms 0) eops).viewState ctx) = arms
    rw [EG_armKeys_viewState hwf ctx, (EG_runEG_fields _ eops).1]
    exact rfl
  · intro a ha
    rw [hsel r1 e1 h1] at ha
    exact maxByFirst_FirstMax ha

theorem C7_witness :
    ((runEG (EpsilonGreedyBandit.init ["A", "B"] 0) []).selectArm 0 0 none =
      (runEG (EpsilonGreedyBandit.init ["A", "B"] 0) []).selectArm 0 1 none) ∧
    FirstMax (((runEG (EpsilonGreedyBandit.init ["A", "B"] 0) []).viewState none).map
      (fun p => (p.1, p.2.mean))) "A" := by
  obtain ⟨hh1, hh2, hh3⟩ := C7_eps_zero_select_deterministic_first_max ["A", "B"] [] none
    0 0 0 1 (le_refl 0) (le_refl 0)
  refine ⟨hh1, hh3 "A" ?_⟩
  simp [runEG, EpsilonGreedyBandit.selectArm, EpsilonGreedyBandit.ensureCtx,
    EpsilonGreedyBandit.viewState, EpsilonGreedyBandit.init, seedMap, EGState.mean,
    maxByFirst, maxPairAux]

/-! ## C10: `alpha + beta` counts the updates of a pair -/

/-- Number of `update` calls for a given (context, arm) pair in a call
sequence. -/
def countUpdates (ops : List TOp) (ctx : Option Ctx) (arm : Arm) : ℕ :=
  (ops.filter (fun op => op.isUpdOf ctx arm)).length

theorem isUpdOf_update_iff (a : Arm) (r : ℚ) (c ctx : Option Ctx) (arm : Arm) :
    (TOp.update a r c).isUpdOf ctx arm = true ↔ (a = arm ∧ c = ctx) := by
  simp [TOp.isUpdOf]

theorem isUpdOf_select (draw : Arm → ℚ) (c ctx : Option Ctx) (arm : Arm) :
    (TOp.select draw c).isUpdOf ctx arm = false := rfl

theorem isUpdOf_getStats (c ctx : Option Ctx) (arm : Arm) :
    (TOp.getStats c).isUpdOf ctx arm = false := rfl

theorem countUpdates_nil (ctx : Option Ctx) (arm : Arm) : countUpdates [] ctx arm = 0 := rfl

theorem countUpdates_cons (op : TOp) (ops : List TOp) (ctx : Option Ctx) (arm : Arm) :
    countUpdates (op :: ops) ctx arm =
      countUpdates ops ctx arm + (if op.isUpdOf ctx arm then 1 else 0) := by
  unfold countUpdates
  by_cases h : op.isUpdOf ctx arm = true
  · simp [List.filter_cons, h]
  · simp [List.filter_cons, h]

theorem cast_ite01 (c : Prop) [Decidable c] :
    (((if c then 1 else 0) : ℕ) : ℚ) = if c then (1 : ℚ) else 0 := by
  split_ifs <;> simp

/-- One step moves the `alpha + beta` sum of a (context, arm) cell up by
exactly 1 when the step is an `update` of that pair, and leaves it
unchanged otherwise. -/
theorem TS_lookup_step (b : ThompsonBandit) (op : TOp) (ctx : Option Ctx) (arm : Arm)
    (hwf : b.WF) (hmem : arm ∈ b.arms) (st : BetaState)
    (hl : lookupArm (b.viewState ctx) arm = some st) :
    ∃ st2, lookupArm ((b.step op).viewState ctx) arm = some st2 ∧
      st2.alpha + st2.beta =
        st.alpha + st.beta + (if op.isUpdOf ctx arm then (1 : ℚ) else 0) := by
  cases op with
  | select draw ctx2 =>
    refine ⟨st, ?_, ?_⟩
    · show lookupArm ((b.ensureCtx ctx2).viewState ctx) arm = some st
      rw [TS_viewState_ensureCtx]
      exact hl
    · rw [isUpdOf_select]
      simp
  | getStats ctx2 =>
    refine ⟨st, ?_, ?_⟩
    · show lookupArm ((b.ensureCtx ctx2).viewState ctx) arm = some st
      rw [TS_viewState_ensureCtx]
      exact hl
    · rw [isUpdOf_getStats]
      simp
  | update arm2 reward ctx2 =>
    rcases TS_step_update_cases b arm2 reward ctx2 with ⟨hnone, heq⟩ | ⟨st0, hl0, heq⟩
    · have hfalse : ¬ ((TOp.update arm2 reward ctx2).isUpdOf ctx arm = true) := by
        rw [isUpdOf_update_iff]
        rintro ⟨rfl, rfl⟩
        rw [TS_viewState_ensureCtx, hl] at hnone
        cases hnone
      rw [heq, TS_viewState_ensureCtx]
      refine ⟨st, hl, ?_⟩
      rw [if_neg hfalse]
      simp
    · rw [heq]
      by_cases hctx : ctx2 = ctx
      · subst hctx
        have hpresent : ctx2 = none ∨ ∃ c m, ctx2 = some c ∧
            findCtx (b.ensureCtx ctx2).contextual_state c = some m := by
          cases ctx2 with
          | none => exact Or.inl rfl
          | some c => exact Or.inr ⟨c, _, rfl, findCtx_ensure_self b.contextual_state c _⟩
        rw [TS_viewState_setPair_same _ _ _ _ hpresent, TS_viewState_ensureCtx,
          lookupArm_modifyArm]
        by_cases harm : arm = arm2
        · refine ⟨⟨st.alpha + clip01 reward, st.beta + (1 - clip01 reward)⟩, ?_, ?_⟩
          · rw [if_pos harm, hl]
            rfl
          · have htrue : (TOp.update arm2 reward ctx2).isUpdOf ctx2 arm = true := by
              rw [isUpdOf_update_iff]
              exact ⟨harm.symm, rfl⟩
            rw [if_pos htrue]
            show st.alpha + clip01 reward + (st.beta + (1 - clip01 reward)) = _
            ring
        · refine ⟨st, ?_, ?_⟩
          · rw [if_neg harm]
            exact hl
          · have hfalse : ¬ ((TOp.update arm2 reward ctx2).isUpdOf ctx2 arm = true) := by
              rw [isUpdOf_update_iff]
              rintro ⟨h1, h2⟩
              exact harm h1.symm
            rw [if_neg hfalse]
            simp
      · have hne : ctx ≠ ctx2 := fun hh => hctx hh.symm
        rw [TS_viewState_setPair_other _ _ _ _ _ hne, TS_viewState_ensureCtx]
        refine ⟨st, hl, ?_⟩
        have hfalse : ¬ ((TOp.update arm2 reward ctx2).isUpdOf ctx arm = true) := by
          rw [isUpdOf_update_iff]
          rintro ⟨rfl, rfl⟩
          exact hctx rfl
        rw [if_neg hfalse]
        simp

theorem TS_lookup_run (ops : List TOp) (b : ThompsonBandit) (hwf : b.WF) (ctx : Option Ctx)
    (arm : Arm) (hmem : arm ∈ b.arms) (st : BetaState)
    (hl : lookupArm (b.viewState ctx) arm = some st) :
    ∃ st2, lookupArm ((runTS b ops).viewState ctx) arm = some st2 ∧
      st2.alpha + st2.beta = st.alpha + st.beta + (countUpdates ops ctx arm : ℚ) := by
  induction ops generalizing b st with
  | nil =>
    refine ⟨st, hl, ?_⟩
    rw [countUpdates_nil]
    simp
  | cons op rest ih =>
    obtain ⟨st1, hl1, hsum1⟩ := TS_lookup_step b op ctx arm hwf hmem st hl
    have hwf1 := TS_WF_step hwf op
    have hmem1 : arm ∈ (b.step op).arms := by
      rw [(TS_step_fields b op).1]
      exact hmem
    obtain ⟨st2, hl2, hsum2⟩ := ih (b.step op) hwf1 hmem1 st1 hl1
    refine ⟨st2, hl2, ?_⟩
    rw [hsum2, hsum1, countUpdates_cons]
    push_cast [cast_ite01]
    ring

/-- C10: in the Thompson Sampling variant, after any call sequence
containing exactly k updates of a (context, arm) pair, that cell satisfies
`alpha + beta = alpha_prior + beta_prior + k`; hence the `n_pulls` value
`alpha + beta - 2` reported by `get_statistics` equals
`k + (alpha_prior + beta_prior) - 2`, which is exactly `k` precisely when
`alpha_prior + beta_prior = 2` (the default priors). -/
theorem C10_alpha_beta_sum_counts_updates (arms : List Arm) (ap bp : ℚ) (ops : List TOp)
    (ctx : Option Ctx) (arm : Arm) (hmem : arm ∈ arms) (st : BetaState)
    (hl : lookupArm ((runTS (ThompsonBandit.init arms ap bp) ops).viewState ctx) arm
      = some st) :
    st.alpha + st.beta = ap + bp + (countUpdates ops ctx arm : ℚ) ∧
    ThompsonBandit.nPulls st = (countUpdates ops ctx arm : ℚ) + (ap + bp) - 2 ∧
    (ap + bp = 2 → ThompsonBandit.nPulls st = (countUpdates ops ctx arm : ℚ)) := by
  have hinit : lookupArm ((ThompsonBandit.init arms ap bp).viewState ctx) arm
      = some ⟨ap, bp⟩ := by
    cases ctx with
    | none =>
      have hview : (ThompsonBandit.init arms ap bp).viewState none
          = seedMap arms ⟨ap, bp⟩ := rfl
      rw [hview, lookupArm_seedMap, if_pos hmem]
    | some c =>
      have hview : (ThompsonBandit.init arms ap bp).viewState (some c)
          = seedMap arms ⟨ap, bp⟩ := rfl
      rw [hview, lookupArm_seedMap, if_pos hmem]
  obtain ⟨st2, hl2, hsum⟩ := TS_lookup_run ops (ThompsonBandit.init arms ap bp)
    (TS_WF_init arms ap bp) ctx arm hmem ⟨ap, bp⟩ hinit
  rw [hl2] at hl
  have hst : st2 = st := by
    injection hl
  subst hst
  have hsum2 : st2.alpha + st2.beta = ap + bp + (countUpdates ops ctx arm : ℚ) := hsum
  refine ⟨hsum2, ?_, ?_⟩
  · unfold ThompsonBandit.nPulls
    linarith
  · intro h2
    unfold ThompsonBandit.nPulls
    linarith

theorem C10_witness :
    (BetaState.mk 2 2).alpha + (BetaState.mk 2 2).beta = 1 + 1 +
      (countUpdates [TOp.update "A" 1 none, TOp.update "A" 0 none] none "A" : ℚ) ∧
    ThompsonBandit.nPulls ⟨2, 2⟩ =
      (countUpdates [TOp.update "A" 1 none, TOp.update "A" 0 none] none "A" : ℚ)
        + (1 + 1) - 2 ∧
    ((1 : ℚ) + 1 = 2 → ThompsonBandit.nPulls ⟨2, 2⟩ =
      (countUpdates [TOp.update "A" 1 none, TOp.update "A" 0 none] none "A" : ℚ)) := by
  refine C10_alpha_beta_sum_counts_updates ["A"] 1 1
    [TOp.update "A" 1 none, TOp.update "A" 0 none] none "A" (by simp) ⟨2, 2⟩ ?_
  simp only [runTS, List.foldl_cons, List.foldl_nil, ThompsonBandit.step,
    ThompsonBandit.update, ThompsonBandit.ensureCtx, ThompsonBandit.viewState,
    ThompsonBandit.init, ThompsonBandit.setPair, seedMap, List.map_cons, List.map_nil,
    lookupArm, modifyArm, clip01]
  norm_num


/-! ## Outreach ranking: `src/app/factories/prioritizer.py` with the
`Customer` model of `src/app/models.py` (only the fields `rank` reads).
Calls that can raise return `Option`: `none` models the Python exception
escaping the call. -/

/-- The fields of `Customer` that `Prioritizer` reads: `price`,
`last_purchase_days` — declared `int` in the model with no `ge` bound
(unlike its sibling fields), so negative values pass validation — and
`issues_flag` (0 or 1 by the model constraint `ge=0, le=1`). -/
structure Customer where
  customer_id : String
  price : ℚ
  last_purchase_days : ℤ
  issues_flag : ℕ
deriving Repr, DecidableEq

/-- Embedding of the `Prioritizer.__init__` weights (`prioritizer.py`
lines 13-29). -/
structure Prioritizer where
  w_issues : ℚ
  w_price : ℚ
  w_recency : ℚ
deriving Repr, DecidableEq

/-- The default weights `w_issues=0.5, w_price=0.3, w_recency=0.2`. -/
def defaultPrioritizer : Prioritizer :=
  ⟨1/2, 3/10, 1/5⟩

/-- Python `max(xs) if xs else 1.0` over the price list. -/
def maxListQ : List ℚ → ℚ
  | [] => 1
  | x :: xs => xs.foldl max x

/-- Python `max(xs) if xs else 1.0` over the recency list. -/
def maxListZ : List ℤ → ℤ
  | [] => 1
  | x :: xs => xs.foldl max x

/-- Embedding of `price_score` (`prioritizer.py` line 88):
`customer.price / max_price if max_price > 0 else 0.0`. -/
def priceComponent (price max_price : ℚ) : ℚ :=
  if max_price > 0 then price / max_price else 0

/-- Embedding of `recency_score` (`prioritizer.py` lines 92-93): line 92
computes `1.0 / (customer.last_purchase_days + 1)` unconditionally, so a
customer with `last_purchase_days = -1` raises `ZeroDivisionError`
(modelled as `none`) before the `max_recency > 0` guard of line 93 is
consulted; otherwise the inverse recency is rescaled by
`1.0 / (max_recency + 1)` when `max_recency > 0` and replaced by `0.0`
when it is not. -/
def recencyComponent (days max_recency : ℤ) : Option ℚ :=
  if days + 1 = 0 then none
  else some (if 0 < max_recency then
    (1 / ((days : ℚ) + 1)) / (1 / ((max_recency : ℚ) + 1)) else 0)

/-- Embedding of `Prioritizer._compute_score` (lines 65-102): weighted sum
of the issues flag, the normalized price and the normalized inverse
recency; it fails exactly when the unconditional recency division of
line 92 does. -/
def Prioritizer.computeScore (p : Prioritizer) (c : Customer) (max_price : ℚ)
    (max_recency : ℤ) : Option ℚ :=
  match recencyComponent c.last_purchase_days max_recency with
  | none => none
  | some rc => some (p.w_issues * (c.issues_flag : ℚ) +
      p.w_price * priceComponent c.price max_price + p.w_recency * rc)

/-- Embedding of the scoring loop of `rank` (lines 52-54): score each
customer in order; a `ZeroDivisionError` raised by `_compute_score` aborts
the whole call. -/
def Prioritizer.scoreAll (p : Prioritizer) (customers : List Customer) (max_price : ℚ)
    (max_recency : ℤ) : Option (List (Customer × ℚ)) :=
  match customers with
  | [] => some []
  | c :: rest =>
    match p.computeScore c max_price max_recency,
        p.scoreAll rest max_price max_recency with
    | some s, some scored => some ((c, s) :: scored)
    | _, _ => none

/-- Embedding of `Prioritizer.rank` (lines 31-63): empty pool
short-circuits to `[]`; otherwise score every customer against the pool
maxima (which can raise, aborting the call — `none`), stable-sort by score
descending, and slice `scored[:top_n]` under Python's `if top_n:` (so both
`None` and `0` skip the slicing and return the whole pool). -/
def Prioritizer.rank (p : Prioritizer) (customers : List Customer) (top_n : Option ℕ) :
    Option (List Customer) :=
  if customers.isEmpty then some []
  else
    let max_price := maxListQ (customers.map Customer.price)
    let max_recency := maxListZ (customers.map Customer.last_purchase_days)
    match p.scoreAll customers max_price max_recency with
    | none => none
    | some scored =>
      let sorted := List.insertionSort (fun x y : Customer × ℚ => y.2 ≤ x.2) scored
      let sliced := match top_n with
        | none => sorted
        | some k => if k = 0 then sorted else sorted.take k
      some (sliced.map Prod.fst)

theorem computeScore_eq_some {c : Customer} (p : Prioritizer) (max_price : ℚ)
    (max_recency : ℤ) (hc : c.last_purchase_days + 1 ≠ 0) :
    ∃ s, p.computeScore c max_price max_recency = some s := by
  unfold Prioritizer.computeScore recencyComponent
  rw [if_neg hc]
  exact ⟨_, rfl⟩

theorem scoreAll_eq_some (p : Prioritizer) (customers : List Customer) (max_price : ℚ)
    (max_recency : ℤ) (h : ∀ c ∈ customers, c.last_purchase_days + 1 ≠ 0) :
    ∃ scored, p.scoreAll customers max_price max_recency = some scored ∧
      scored.length = customers.length := by
  induction customers with
  | nil => exact ⟨[], rfl, rfl⟩
  | cons c rest ih =>
    obtain ⟨scored, hs, hlen⟩ := ih (fun c2 hc2 => h c2 (List.mem_cons_of_mem _ hc2))
    obtain ⟨s, hcs⟩ := computeScore_eq_some p max_price max_recency
      (h c (List.mem_cons_self c rest))
    refine ⟨(c, s) :: scored, ?_, by simp [hlen]⟩
    show (match p.computeScore c max_price max_recency,
        p.scoreAll rest max_price max_recency with
      | some s, some scored => some ((c, s) :: scored)
      | _, _ => none) = _
    rw [hcs, hs]

/-- The concrete customer used in the C4 counterexample (5 days since the
last purchase). -/
def c4Customer : Customer :=
  ⟨"c1", 100, 5, 1⟩

/-- C4 (counterexample): `rank` with `top_n = 0` succeeds and returns the
whole pool — Python's `if top_n:` treats 0 as "not given" — so its result
has length 1 on a one-customer pool, not `min 0 1 = 0` as the claim
requires for every given `top_n`. -/
theorem C4_counterexample :
    ∃ res, defaultPrioritizer.rank [c4Customer] (some 0) = some res ∧
      res.length = 1 ∧ res.length ≠ min 0 ([c4Customer] : List Customer).length := by
  obtain ⟨scored, hs, hlen⟩ := scoreAll_eq_some defaultPrioritizer [c4Customer]
    (maxListQ ([c4Customer].map Customer.price))
    (maxListZ ([c4Customer].map Customer.last_purchase_days)) (by decide)
  refine ⟨(List.insertionSort (fun x y : Customer × ℚ => y.2 ≤ x.2) scored).map Prod.fst,
    ?_, ?_, ?_⟩
  · unfold Prioritizer.rank
    have hne : (([c4Customer] : List Customer)).isEmpty = false := rfl
    simp only [hne, Bool.false_eq_true, if_false, hs, if_true]
  · rw [List.length_map, List.length_insertionSort, hlen]
    rfl
  · rw [List.length_map, List.length_insertionSort, hlen]
    decide

/-- C4 (amended): for every pool whose customers all have
`last_purchase_days ≠ -1` (otherwise `rank` itself fails with the
division by zero of line 92 — see C9) and every `top_n = k ≥ 1`,
`rank(pool, top_n=k)` succeeds with a sequence of length
`min k (len pool)` — in particular a `k` larger than the pool returns the
whole pool; `top_n = 0` is excluded, as Python's falsy check routes it to
the unsliced result. -/
theorem C4_amended_rank_top_n_length (p : Prioritizer) (pool : List Customer) (k : ℕ)
    (hk : 1 ≤ k) (hdays : ∀ c ∈ pool, c.last_purchase_days + 1 ≠ 0) :
    ∃ res, p.rank pool (some k) = some res ∧ res.length = min k pool.length := by
  cases pool with
  | nil => exact ⟨[], rfl, by simp⟩
  | cons c rest =>
    obtain ⟨scored, hs, hlen⟩ := scoreAll_eq_some p (c :: rest)
      (maxListQ ((c :: rest).map Customer.price))
      (maxListZ ((c :: rest).map Customer.last_purchase_days)) hdays
    have hk0 : ¬ (k = 0) := by omega
    refine ⟨((List.insertionSort (fun x y : Customer × ℚ => y.2 ≤ x.2) scored).take k).map
      Prod.fst, ?_, ?_⟩
    · unfold Prioritizer.rank
      have hne : ((c :: rest : List Customer)).isEmpty = false := rfl
      simp only [hne, Bool.false_eq_true, if_false, hs, hk0]
    · rw [List.length_map, List.length_take, List.length_insertionSort, hlen]

theorem C4_witness :
    ∃ res, defaultPrioritizer.rank [c4Customer] (some 2) = some res ∧
      res.length = min 2 ([c4Customer] : List Customer).length :=
  C4_amended_rank_top_n_length defaultPrioritizer [c4Customer] 2 (by norm_num) (by decide)

/-- The customers of the C9 counterexample: one with
`last_purchase_days = -1` (which makes line 92 divide by zero) and one
with `last_purchase_days = 0`, so the pool's maximum recency is 0 — the
very degenerate case the claim asserts is safe. -/
def c9CustomerA : Customer :=
  ⟨"c2", 50, -1, 0⟩

def c9CustomerB : Customer :=
  ⟨"c3", 60, 0, 0⟩

/-- C9 (counterexample): a pool whose maximum recency is 0 but which
contains a customer with `last_purchase_days = -1` makes `rank` fail with
a division by zero — the unconditional `1.0/(days + 1)` of line 92 runs
before the `max_recency > 0` guard — so `rank` is not total and the
degenerate max-recency-0 pool is not always division-safe. -/
theorem C9_counterexample :
    maxListZ ([c9CustomerA, c9CustomerB].map Customer.last_purchase_days) = 0 ∧
    defaultPrioritizer.rank [c9CustomerA, c9CustomerB] none = none := by
  constructor
  · decide
  · have hcs : defaultPrioritizer.computeScore c9CustomerA
        (maxListQ ([c9CustomerA, c9CustomerB].map Customer.price))
        (maxListZ ([c9CustomerA, c9CustomerB].map Customer.last_purchase_days)) = none := by
      unfold Prioritizer.computeScore recencyComponent
      rw [if_pos (by decide)]
    have hsa : defaultPrioritizer.scoreAll [c9CustomerA, c9CustomerB]
        (maxListQ ([c9CustomerA, c9CustomerB].map Customer.price))
        (maxListZ ([c9CustomerA, c9CustomerB].map Customer.last_purchase_days)) = none := by
      unfold Prioritizer.scoreAll
      rw [hcs]
    unfold Prioritizer.rank
    have hne : (([c9CustomerA, c9CustomerB] : List Customer)).isEmpty = false := rfl
    simp only [hne, Bool.false_eq_true, if_false, hsa]

/-- C9 (amended): `rank` is total on every pool whose customers all have
`last_purchase_days ≠ -1` (in particular on every pool of non-negative
recencies): the empty pool returns `[]` — not an error — and a nonempty
such pool always returns a full-length result, with the degenerate guards
holding: a zero pool maximum price (resp. recency) makes the corresponding
normalized component exactly 0, with no division by zero. A customer with
`last_purchase_days = -1`, however, makes `rank` fail with a division by
zero at the unconditional `1.0/(days + 1)` of line 92, even in a pool
whose maximum recency is 0. -/
theorem C9_amended_rank_total_unless_minus_one (p : Prioritizer) (t : Option ℕ)
    (price : ℚ) (days : ℤ) (c : Customer) (mp : ℚ) (mr : ℤ) (pool : List Customer)
    (hpool : ∀ c2 ∈ pool, c2.last_purchase_days + 1 ≠ 0)
    (hdays : days + 1 ≠ 0) (hc : c.last_purchase_days + 1 ≠ 0) :
    p.rank [] t = some [] ∧
    (∃ res, p.rank pool none = some res ∧ res.length = pool.length) ∧
    priceComponent price 0 = 0 ∧
    recencyComponent days 0 = some 0 ∧
    p.computeScore c 0 mr = (recencyComponent c.last_purchase_days mr).map
      (fun rc => p.w_issues * (c.issues_flag : ℚ) + p.w_recency * rc) ∧
    p.computeScore c mp 0 = some (p.w_issues * (c.issues_flag : ℚ) +
      p.w_price * priceComponent c.price mp) := by
  refine ⟨rfl, ?_, ?_, ?_, ?_, ?_⟩
  · cases pool with
    | nil => exact ⟨[], rfl, rfl⟩
    | cons c2 rest =>
      obtain ⟨scored, hs, hlen⟩ := scoreAll_eq_some p (c2 :: rest)
        (maxListQ ((c2 :: rest).map Customer.price))
        (maxListZ ((c2 :: rest).map Customer.last_purchase_days)) hpool
      refine ⟨(List.insertionSort (fun x y : Customer × ℚ => y.2 ≤ x.2) scored).map
        Prod.fst, ?_, ?_⟩
      · unfold Prioritizer.rank
        have hne : ((c2 :: rest : List Customer)).isEmpty = false := rfl
        simp only [hne, Bool.false_eq_true, if_false, hs]
      · rw [List.length_map, List.length_insertionSort, hlen]
  · simp [priceComponent]
  · unfold recencyComponent
    rw [if_neg hdays]
    simp
  · unfold Prioritizer.computeScore
    cases hrc : recencyComponent c.last_purchase_days mr with
    | none => simp
    | some rc => simp [priceComponent]
  · unfold Prioritizer.computeScore recencyComponent
    rw [if_neg hc]
    simp

theorem C9_witness :
    defaultPrioritizer.rank [] (some 7) = some [] ∧
    (∃ res, defaultPrioritizer.rank [c4Customer] none = some res ∧
      res.length = ([c4Customer] : List Customer).length) ∧
    priceComponent 4 0 = 0 ∧
    recencyComponent 3 0 = some 0 ∧
    defaultPrioritizer.computeScore c4Customer 0 5 =
      (recencyComponent c4Customer.last_purchase_days 5).map
        (fun rc => defaultPrioritizer.w_issues * (c4Customer.issues_flag : ℚ) +
          defaultPrioritizer.w_recency * rc) ∧
    defaultPrioritizer.computeScore c4Customer 2 0 =
      some (defaultPrioritizer.w_issues * (c4Customer.issues_flag : ℚ) +
        defaultPrioritizer.w_price * priceComponent c4Customer.price 2) :=
  C9_amended_rank_total_unless_minus_one defaultPrioritizer (some 7) 4 3 c4Customer 2 5
    [c4Customer] (by decide) (by decide) (by decide)

end Spec2Proof
